import Mathlib

/-!
# Verification of the `revl` ring queue (`src/ring.rs`)

A shallow embedding of the bounded MPMC ring queue of `src/ring.rs`:
two lock-free index rings (Ruslan Nikolaev's single-width-CAS Scalable
Circular Queue, SCQ) plus a payload vector.  The embedding gives the
*sequential* semantics of the operations: atomic loads return the value
last stored, a compare-exchange on a just-loaded value succeeds, and a
reload of an unchanged cell returns the same value, so the CAS retry
loops and the bounded 3000-attempt spin of `dequeue` collapse
deterministically.  The unbounded outer retry loops of `enqueue` and
`dequeue` are given explicit fuel; exhausting the fuel models divergence
(`none`).

Machine integers follow the 64-bit target (`target_pointer_width = "64"`,
so `RING_MIN_ORDER = CACHELINE_SHIFT - 3 = 4`) with Rust's release-profile
(wrapping) arithmetic: `usize` values are naturals taken modulo `2^64`,
shifts mask their shift amount, and `usize -> isize` casts reinterpret the
bit pattern in two's complement.  A Rust indexing panic (out-of-bounds
payload access) is modelled as an explicit `oob` result.
-/

set_option maxRecDepth 4000

namespace Revl

/-- The `usize` modulus of the 64-bit target: `2^64`. -/
def W : Nat := 18446744073709551616

theorem W_eq : W = 2 ^ 64 := by norm_num [W]

/-- Wrapping `usize` addition. -/
def uadd (a b : Nat) : Nat := (a + b) % W

/-- Wrapping `usize` subtraction (`overflowing_sub`). -/
def usub (a b : Nat) : Nat := (a % W + (W - b % W)) % W

/-- Wrapping `usize` multiplication. -/
def umul (a b : Nat) : Nat := (a * b) % W

/-- Release-profile `usize` left shift: the shift amount is masked to the
word size and shifted-out bits are discarded. -/
def shl (a b : Nat) : Nat := (a <<< (b % 64)) % W

/-- Release-profile `usize` right shift: the shift amount is masked. -/
def shr (a b : Nat) : Nat := (a % W) >>> (b % 64)

/-- Bitwise complement (`!x`) on `usize`. -/
def unot (a : Nat) : Nat := W - 1 - a % W

/-- Reinterpret a `usize` bit pattern as an `isize` (two's complement). -/
def toIsize (a : Nat) : Int :=
  if a % W < 2 ^ 63 then ((a % W : Nat) : Int) else ((a % W : Nat) : Int) - (W : Int)

/-- Wrapping `isize` decrement, as performed by `fetch_sub(1)`. -/
def isizeDec (t : Int) : Int :=
  if t = -(2 ^ 63 : Int) then 2 ^ 63 - 1 else t - 1

/-- `CACHELINE_SHIFT` from `ring.rs`. -/
def CACHELINE_SHIFT : Nat := 7

/-- `RING_MIN_ORDER` for the 64-bit target. -/
def RING_MIN_ORDER : Nat := CACHELINE_SHIFT - 3

/-- `RING_EMPTY_VAL = !0`. -/
def RING_EMPTY_VAL : Nat := W - 1

/-- `fn sub_with_overflow(lhs: usize, rhs: usize) -> isize`. -/
def sub_with_overflow (lhs rhs : Nat) : Int := toIsize (usub lhs rhs)

/-- The state of one `Ring<ORDER>`: the atomic cell vector and the three
cache-line-isolated counters.  The const generic `ORDER` becomes an
explicit argument of the operations. -/
structure Ring where
  cells : List Nat
  head : Nat
  tail : Nat
  threshold : Int
deriving DecidableEq, Repr

namespace Ring

/-- `get_nr_entries() = 1usize << ORDER` ("half"). -/
def get_nr_entries (o : Nat) : Nat := shl 1 o

/-- `get_nr_cells() = 1usize << (ORDER + 1)` ("full"). -/
def get_nr_cells (o : Nat) : Nat := shl 1 (o + 1)

/-- `fn map(idx, limit, order)`: the cache-line-interleaving cell
permutation. -/
def map (idx limit order : Nat) : Nat :=
  shr (idx &&& usub limit 1) (usub order RING_MIN_ORDER) |||
    (shl idx RING_MIN_ORDER &&& usub limit 1)

/-- `fn get_threshold(half, nr) = (half + nr - 1) as isize`. -/
def get_threshold (half nr : Nat) : Int := toIsize (usub (uadd half nr) 1)

/-- `Ring::new()`: all cells `RING_EMPTY_VAL`, `head = tail = 0`,
`threshold = -1`. -/
def new (o : Nat) : Ring :=
  { cells := List.replicate (get_nr_cells o) RING_EMPTY_VAL
    head := 0
    tail := 0
    threshold := -1 }

/-- Apply the stores `cells[(f k).1] := (f k).2` for `k = 0, 1, ..., n-1`
in ascending order (the later store is applied last). -/
def storeSeq (f : Nat → Nat × Nat) : Nat → List Nat → List Nat
  | 0, cs => cs
  | n + 1, cs => (storeSeq f n cs).set (f n).1 (f n).2

/-- `Ring::fill()`: preload the ring with the `half` indices
`map(full + n, half, ORDER)` at cells `map(n, full, ORDER + 1)`, store
`RING_EMPTY_VAL` in the remaining cells, and set `head = 0`,
`tail = half`, `threshold = get_threshold(half, full)`. -/
def fill (o : Nat) (r : Ring) : Ring :=
  let half := get_nr_entries o
  let full := get_nr_cells o
  let cs1 := storeSeq (fun n => (map n full (o + 1), map (uadd full n) half o)) half r.cells
  let cs2 := storeSeq (fun k => (map (half + k) full (o + 1), RING_EMPTY_VAL)) (full - half) cs1
  { cells := cs2
    head := 0
    tail := half
    threshold := get_threshold half full }

/-- The body of `Ring::enqueue`'s `'again` loop, with the already-xored
index `eidx` and explicit fuel for the outer retry.  Sequentially the
inner CAS loop needs no retry: the compare-exchange of a just-loaded
value succeeds. -/
def enqueueGo (o eidx : Nat) : Nat → Ring → Option Ring
  | 0, _ => none
  | fuel + 1, r =>
    let half := get_nr_entries o
    let full := get_nr_cells o
    let tail := r.tail
    let r1 : Ring := { r with tail := uadd r.tail 1 }
    let tcycle := shl tail 1 ||| usub (umul 2 full) 1
    let tidx := map tail full (o + 1)
    let entry := r1.cells.getD tidx 0
    let ecycle := entry ||| usub (umul 2 full) 1
    if sub_with_overflow ecycle tcycle < 0 ∧
        (entry = ecycle ∨
          (entry = ecycle ^^^ full ∧ sub_with_overflow r1.head tail ≤ 0)) then
      let r2 : Ring := { r1 with cells := r1.cells.set tidx (tcycle ^^^ eidx) }
      let t := get_threshold half full
      some (if r2.threshold ≠ t then { r2 with threshold := t } else r2)
    else
      enqueueGo o eidx fuel r1

/-- `Ring::enqueue(eidx)`: `eidx ^= full - 1` and run the claim loop. -/
def enqueue (o fuel : Nat) (r : Ring) (eidx : Nat) : Option Ring :=
  enqueueGo o (eidx ^^^ usub (get_nr_cells o) 1) fuel r

/-- The result of probing one claimed head cell in `dequeue`. -/
inductive Probe where
  | hit (idx : Nat) (cells : List Nat)
  | miss (cells : List Nat)
deriving DecidableEq

/-- One probe of the claimed head cell: the sequential collapse of
`dequeue`'s `'again`/CAS structure.  In a single-threaded run a reload
returns the same entry, so when the `(entry | full) == ecycle` branch is
taken the attempt counter runs 1..3000 over an unchanged cell and the
forced-resolution value `hcycle ^ ((!entry) & full)` is then installed;
a CAS on the just-loaded entry succeeds. -/
def probe (full hcycle hidx : Nat) (cells : List Nat) : Probe :=
  let entry := cells.getD hidx 0
  let ecycle := entry ||| usub (umul 2 full) 1
  if ecycle = hcycle then
    .hit (entry &&& usub full 1) (cells.set hidx (entry ||| usub full 1))
  else if entry ||| full ≠ ecycle then
    let newEntry := entry &&& unot full
    if entry = newEntry then .miss cells
    else if 0 ≤ sub_with_overflow ecycle hcycle then .miss cells
    else .miss (cells.set hidx newEntry)
  else
    let newEntry := hcycle ^^^ (unot entry &&& full)
    if 0 ≤ sub_with_overflow ecycle hcycle then .miss cells
    else .miss (cells.set hidx newEntry)

/-- The head-claim loop of `Ring::dequeue` with explicit fuel.  On a miss
the code compares `tail` against `head + 1`: if the tail has not moved
past, it reconciles the tail (`catchup`; sequentially the first CAS
succeeds), decrements `threshold` and returns `None`; otherwise it
decrements `threshold`, returning `None` if the previous value was
non-positive, else claims a new head position. -/
def dequeueGo (o : Nat) : Nat → Ring → Option (Option Nat × Ring)
  | 0, _ => none
  | fuel + 1, r =>
    let full := get_nr_cells o
    let head := r.head
    let r1 : Ring := { r with head := uadd r.head 1 }
    let hcycle := shl head 1 ||| usub (umul 2 full) 1
    let hidx := map head full (o + 1)
    match probe full hcycle hidx r1.cells with
    | .hit idx cs => some (some idx, { r1 with cells := cs })
    | .miss cs =>
      let r2 : Ring := { r1 with cells := cs }
      if sub_with_overflow r2.tail (uadd head 1) ≤ 0 then
        let r3 : Ring := { r2 with tail := uadd head 1 }
        some (none, { r3 with threshold := isizeDec r3.threshold })
      else
        let old := r2.threshold
        let r3 : Ring := { r2 with threshold := isizeDec old }
        if old ≤ 0 then some (none, r3) else dequeueGo o fuel r3

/-- `Ring::dequeue()`: the fast path returns `None` immediately when
`threshold < 0`, leaving the ring untouched. -/
def dequeue (o fuel : Nat) (r : Ring) : Option (Option Nat × Ring) :=
  if r.threshold < 0 then some (none, r) else dequeueGo o fuel r

end Ring

/-- The shared `RingQueue<T, ORDER>`: the ready ring `dq`, the free ring
`fq` and the payload vector `data`. -/
structure RingQueue (α : Type _) where
  dq : Ring
  fq : Ring
  data : List α
deriving DecidableEq

/-- The outcome of `RingQueue::send`: `spin` models a non-terminating
retry loop (exhausted fuel), `oob` the panic of an out-of-bounds payload
write, `full` the `None` return, `ok` the `Some(())` return. -/
inductive SendRes (α : Type _) where
  | spin
  | oob
  | full (q : RingQueue α)
  | ok (q : RingQueue α)
deriving DecidableEq

/-- The outcome of `RingQueue::recv`. -/
inductive RecvRes (α : Type _) where
  | spin
  | oob
  | empty (q : RingQueue α)
  | ok (v : α) (q : RingQueue α)
deriving DecidableEq

/-- `RingQueue::send(msg)`: dequeue a free index, write the payload cell,
enqueue the index into the ready ring. -/
def RingQueue.send (o fuel : Nat) (q : RingQueue α) (msg : α) : SendRes α :=
  match Ring.dequeue o fuel q.fq with
  | none => .spin
  | some (none, fq1) => .full { q with fq := fq1 }
  | some (some eidx, fq1) =>
    if eidx < q.data.length then
      match Ring.enqueue o fuel q.dq eidx with
      | none => .spin
      | some dq1 => .ok { dq := dq1, fq := fq1, data := q.data.set eidx msg }
    else .oob

/-- `RingQueue::recv()`: dequeue a ready index, `mem::take` the payload
cell (leaving the default value), release the index to the free ring. -/
def RingQueue.recv [Inhabited α] (o fuel : Nat) (q : RingQueue α) : RecvRes α :=
  match Ring.dequeue o fuel q.dq with
  | none => .spin
  | some (none, dq1) => .empty { q with dq := dq1 }
  | some (some eidx, dq1) =>
    if h : eidx < q.data.length then
      match Ring.enqueue o fuel q.fq eidx with
      | none => .spin
      | some fq1 => .ok (q.data.get ⟨eidx, h⟩)
          { dq := dq1, fq := fq1, data := q.data.set eidx default }
    else .oob

/-- `fn create<T, ORDER>()`: a fresh `dq`, a filled `fq`, and `1 << ORDER`
default payload cells.  (The `Sender`/`Receiver` handles are views onto
this shared state.) -/
def create (α : Type _) [Inhabited α] (o : Nat) : RingQueue α :=
  { dq := Ring.new o
    fq := Ring.fill o (Ring.new o)
    data := List.replicate (shl 1 o) (default : α) }

/-! ## Abstraction of sequentially reachable ring states

A ring used sequentially holds the logical entries of the positions
`H ≤ s < T` (true, unwrapped counters).  Position `s` lives in the cell
`mapC o (s % full)`, the arithmetic form of `Ring.map` for a valid order,
and carries the cycle tag `2*s % W` rounded to a multiple of `2^(o+2)`.
Cells preloaded by `fill` (positions below the boundary `b`) carry their
entry with the `full` bit clear (the "unsafe" flavour of the SCQ cell
encoding); the flag `u p` records, per cell, whether its current content
is of that flavour. -/

/-- `capacity`: the number of payload slots, `2^ORDER`. -/
def half (o : Nat) : Nat := 2 ^ o

/-- The cell count of one ring, `2^(ORDER+1)`. -/
def full (o : Nat) : Nat := 2 ^ (o + 1)

/-- The cycle modulus `2 * full = 2^(ORDER+2)`. -/
def F2 (o : Nat) : Nat := 2 ^ (o + 2)

/-- The cycle tag of position `s`: `((s << 1) | (2*full - 1))` computed on
the wrapped counter. -/
def cycleVal (o s : Nat) : Nat := 2 * s % W ||| (F2 o - 1)

/-- The safe live entry installed for index `i` at position `s`:
`tcycle ^ (i ^ (full - 1))`. -/
def liveVal (o s i : Nat) : Nat := cycleVal o s ^^^ (i ^^^ (full o - 1))

/-- Arithmetic form of the cell permutation `Ring.map (-) full (o+1)` on a
residue `m < full`. -/
def mapC (o m : Nat) : Nat := m / 2 ^ (o - 3) + 16 * (m % 2 ^ (o - 3))

/-- The inverse of `mapC`. -/
def unmapC (o p : Nat) : Nat := p % 16 * 2 ^ (o - 3) + p / 16

/-- Arithmetic form of the value permutation `Ring.map (full + -) half o`
used by `fill` on a slot index `n < half`. -/
def rotV (o n : Nat) : Nat := n / 2 ^ (o - 4) + 16 * (n % 2 ^ (o - 4))

/-- The governing position of residue `n`: the largest `s < T` congruent
to `n` modulo `full` (meaningful when `n < T`). -/
def gov (o T n : Nat) : Nat := T - 1 - (T - 1 - n) % full o

/-- The steady-state threshold value `half + full - 1`. -/
def thFull (o : Nat) : Int := (half o : Int) + full o - 1

/-- The content of cell `p` in the sequential abstraction: untouched cells
are `RING_EMPTY_VAL`; a cell governed by a consumed position holds its
bare cycle tag; a cell governed by a live position holds the encoded
index; the `full` bit is cleared on cells still of the fill flavour. -/
def cellContent (o H T : Nat) (f : Nat → Nat) (u : Nat → Bool) (p : Nat) : Nat :=
  if T ≤ unmapC o p then RING_EMPTY_VAL
  else
    (if gov o T (unmapC o p) < H then cycleVal o (gov o T (unmapC o p))
      else liveVal o (gov o T (unmapC o p)) (f (gov o T (unmapC o p))))
      ^^^ (if u p then full o else 0)

/-- The sequential ring invariant: `r` is the ring with true counters
`H ≤ T`, resident indices `f s` for `H ≤ s < T`, fill boundary `b` and
per-cell flavour `u`. -/
structure SeqRing (o b : Nat) (r : Ring) (H T : Nat) (f : Nat → Nat) (u : Nat → Bool) : Prop where
  hb : b ≤ half o
  hbT : b ≤ T
  hhead : r.head = H % W
  htail : r.tail = T % W
  hHT : H ≤ T
  hwin : T - H ≤ full o
  hf : ∀ s, H ≤ s → s < T → f s < half o
  hlen : r.cells.length = full o
  hcells : ∀ p, p < full o → r.cells.getD p 0 = cellContent o H T f u p
  huLive : ∀ p, p < full o → unmapC o p < T → H ≤ gov o T (unmapC o p) →
      u p = decide (gov o T (unmapC o p) < b)
  huEmpty : ∀ p, p < full o → T ≤ unmapC o p → u p = false
  hthLo : -1 ≤ r.threshold
  hthHi : r.threshold ≤ thFull o
  hthNE : H < T → r.threshold = thFull o

/-- The list of resident indices of positions `H ≤ s < T`. -/
def segOf (f : Nat → Nat) (H T : Nat) : List Nat :=
  (List.range (T - H)).map fun k => f (H + k)

/-- The slot indices resident in a ring, read off the cells: a cell whose
low `ORDER+1` bits decode (as `dequeue` decodes them, by masking with
`full - 1`) to a valid slot index holds that index; all other cells
(empty, consumed or reconciled) decode to `full - 1 ≥ capacity`. -/
def ringIndices (o : Nat) (r : Ring) : List Nat :=
  r.cells.filterMap fun e =>
    if e &&& (full o - 1) < half o then some (e &&& (full o - 1)) else none

/-- The queue invariant: both rings satisfy the sequential ring invariant
(the free ring with fill boundary `capacity`, the ready ring with
boundary `0`), the resident indices of the two rings together are a
permutation of the `capacity` slot indices, and the payload vector has
length `capacity`. -/
def QInv (o : Nat) (q : RingQueue α) : Prop :=
  ∃ Hf Tf ff uf Hd Td fd ud,
    SeqRing o (half o) q.fq Hf Tf ff uf ∧
    SeqRing o 0 q.dq Hd Td fd ud ∧
    List.Perm (segOf ff Hf Tf ++ segOf fd Hd Td) (List.range (half o)) ∧
    q.data.length = half o

/-- One completed queue operation: a send (successful or reporting full)
or a receive (successful or reporting empty), with any fuel and message. -/
inductive Step (α : Type _) [Inhabited α] (o : Nat) : RingQueue α → RingQueue α → Prop where
  | sendOk (fuel : Nat) (msg : α) (q q' : RingQueue α) :
      RingQueue.send o fuel q msg = .ok q' → Step α o q q'
  | sendFull (fuel : Nat) (msg : α) (q q' : RingQueue α) :
      RingQueue.send o fuel q msg = .full q' → Step α o q q'
  | recvOk (fuel : Nat) (v : α) (q q' : RingQueue α) :
      RingQueue.recv o fuel q = .ok v q' → Step α o q q'
  | recvEmpty (fuel : Nat) (q q' : RingQueue α) :
      RingQueue.recv o fuel q = .empty q' → Step α o q q'

/-- Queue states reachable from `create` by sequences of send/recv. -/
def Reachable (α : Type _) [Inhabited α] (o : Nat) (q : RingQueue α) : Prop :=
  Relation.ReflTransGen (Step α o) (create α o) q

/-- Did a send succeed (`Some(())` in the source)? -/
def SendRes.isOk : SendRes α → Bool
  | .ok _ => true
  | _ => false

/-- Did a send report a full queue (`None` in the source)? -/
def SendRes.isFull : SendRes α → Bool
  | .full _ => true
  | _ => false

/-- The queue state after a send, `q` itself if no state was produced. -/
def SendRes.state (q : RingQueue α) : SendRes α → RingQueue α
  | .ok q2 => q2
  | .full q2 => q2
  | _ => q

/-- Did a receive succeed (`Some(v)` in the source)? -/
def RecvRes.isOk : RecvRes α → Bool
  | .ok _ _ => true
  | _ => false

/-- The received value, `default` if none was produced. -/
def RecvRes.val [Inhabited α] : RecvRes α → α
  | .ok v _ => v
  | _ => default

/-- The queue state after a receive, `q` itself if no state was produced. -/
def RecvRes.state (q : RingQueue α) : RecvRes α → RingQueue α
  | .ok _ q2 => q2
  | .empty q2 => q2
  | _ => q

/-- Iterated `send`, requiring every send to succeed. -/
def sendChain (o fuel : Nat) (msg : α) : Nat → RingQueue α → Option (RingQueue α)
  | 0, q => some q
  | n + 1, q =>
    match RingQueue.send o fuel q msg with
    | .ok q2 => sendChain o fuel msg n q2
    | _ => none

/-- The capacity-boundary scenario at order `o`: fill the queue with
`2^o` successful sends, observe that the next send reports full, receive
once, then observe that the next send succeeds again. -/
def capacityBoundary (o fuel : Nat) : Bool :=
  match sendChain o fuel 1 (2 ^ o) (create Nat o) with
  | none => false
  | some qfull =>
    match RingQueue.send o fuel qfull 1 with
    | .full q2 =>
      match RingQueue.recv o fuel q2 with
      | .ok _ q3 => (RingQueue.send o fuel q3 1).isOk
      | _ => false
    | _ => false

/-- A concrete order-4 queue with one message (the value 5) in flight. -/
def oneSent : RingQueue Nat := (RingQueue.send 4 1 (create Nat 4) 5).state (create Nat 4)

/-- The receive performed on `oneSent`. -/
def oneRecv : RecvRes Nat := RingQueue.recv 4 1 oneSent

/-! ## Bit-arithmetic toolkit -/

theorem or_all_ones {a k : Nat} (h : a < 2 ^ k) : a ||| (2 ^ k - 1) = 2 ^ k - 1 := by
  apply Nat.eq_of_testBit_eq
  intro j
  rw [Nat.testBit_or, Nat.testBit_two_pow_sub_one]
  by_cases hj : j < k
  · simp [hj]
  · have : a < 2 ^ j :=
      lt_of_lt_of_le h (Nat.pow_le_pow_right (by norm_num) (le_of_not_lt hj))
    simp [hj, Nat.testBit_lt_two_pow this]

theorem or_low (x k : Nat) : x ||| (2 ^ k - 1) = 2 ^ k * (x / 2 ^ k) + (2 ^ k - 1) := by
  apply Nat.eq_of_testBit_eq
  intro j
  rw [Nat.testBit_or,
    Nat.testBit_mul_pow_two_add _ (Nat.sub_lt (Nat.two_pow_pos k) one_pos) j,
    Nat.testBit_two_pow_sub_one]
  by_cases hj : j < k
  · simp [hj]
  · have hd : decide (j < k) = false := by simp [hj]
    rw [if_neg hj, hd, Bool.or_false, ← Nat.shiftRight_eq_div_pow, Nat.testBit_shiftRight]
    congr 1
    omega

theorem digits_or (a c : Nat) {b d k : Nat} (hb : b < 2 ^ k) (hd : d < 2 ^ k) :
    (2 ^ k * a + b) ||| (2 ^ k * c + d) = 2 ^ k * (a ||| c) + (b ||| d) := by
  apply Nat.eq_of_testBit_eq
  intro j
  rw [Nat.testBit_mul_pow_two_add _ (Nat.or_lt_two_pow hb hd) j, Nat.testBit_or,
    Nat.testBit_mul_pow_two_add _ hb j, Nat.testBit_mul_pow_two_add _ hd j]
  by_cases hj : j < k <;> simp [hj, Nat.testBit_or]

theorem digits_and (a c : Nat) {b d k : Nat} (hb : b < 2 ^ k) (hd : d < 2 ^ k) :
    (2 ^ k * a + b) &&& (2 ^ k * c + d) = 2 ^ k * (a &&& c) + (b &&& d) := by
  apply Nat.eq_of_testBit_eq
  intro j
  rw [Nat.testBit_mul_pow_two_add _ (Nat.and_lt_two_pow _ hd) j, Nat.testBit_and,
    Nat.testBit_mul_pow_two_add _ hb j, Nat.testBit_mul_pow_two_add _ hd j]
  by_cases hj : j < k <;> simp [hj, Nat.testBit_and]

theorem digits_xor (a c : Nat) {b d k : Nat} (hb : b < 2 ^ k) (hd : d < 2 ^ k) :
    (2 ^ k * a + b) ^^^ (2 ^ k * c + d) = 2 ^ k * (a ^^^ c) + (b ^^^ d) := by
  apply Nat.eq_of_testBit_eq
  intro j
  rw [Nat.testBit_mul_pow_two_add _ (Nat.xor_lt_two_pow hb hd) j, Nat.testBit_xor,
    Nat.testBit_mul_pow_two_add _ hb j, Nat.testBit_mul_pow_two_add _ hd j]
  by_cases hj : j < k <;> simp [hj, Nat.testBit_xor]

theorem xor_all_ones : ∀ {k v : Nat}, v < 2 ^ k → (2 ^ k - 1) ^^^ v = 2 ^ k - 1 - v := by
  intro k
  induction k with
  | zero =>
    intro v hv
    interval_cases v
    rfl
  | succ k ih =>
    intro v hv
    have hA := Nat.two_pow_pos k
    have h1 : v % 2 ^ k < 2 ^ k := Nat.mod_lt _ hA
    have e2 : v = 2 ^ k * (v / 2 ^ k) + v % 2 ^ k := (Nat.div_add_mod v (2 ^ k)).symm
    have e1 : (2 : Nat) ^ (k + 1) - 1 = 2 ^ k * 1 + (2 ^ k - 1) := by
      rw [pow_succ]
      omega
    have h2 : v / 2 ^ k = 0 ∨ v / 2 ^ k = 1 := by
      have hvk : v < 2 ^ k * 2 := by rw [← pow_succ]; exact hv
      have h3 : v / 2 ^ k < 2 := Nat.div_lt_of_lt_mul hvk
      interval_cases h : (v / 2 ^ k)
      · exact Or.inl rfl
      · exact Or.inr rfl
    rw [e1]
    conv_lhs => rw [e2]
    rw [digits_xor 1 (v / 2 ^ k) (by omega) h1, ih h1]
    rcases h2 with h | h <;> rw [h] at e2 ⊢
    · rw [Nat.xor_zero]
      omega
    · rw [show (1 : Nat) ^^^ 1 = 0 from rfl]
      omega

theorem and_low (x k : Nat) : x &&& (2 ^ k - 1) = x % 2 ^ k :=
  Nat.and_pow_two_sub_one_eq_mod x k

theorem digit_div {b k : Nat} (a : Nat) (hb : b < 2 ^ k) : (2 ^ k * a + b) / 2 ^ k = a := by
  rw [Nat.mul_add_div (Nat.two_pow_pos k), Nat.div_eq_of_lt hb, Nat.add_zero]

theorem digit_mod {b k : Nat} (a : Nat) (hb : b < 2 ^ k) : (2 ^ k * a + b) % 2 ^ k = b := by
  rw [Nat.mul_add_mod, Nat.mod_eq_of_lt hb]

theorem entry_or_mask {c : Nat} (a k : Nat) (hc : c < 2 ^ k) :
    (2 ^ k * a + c) ||| (2 ^ k - 1) = 2 ^ k * a + (2 ^ k - 1) := by
  rw [or_low, digit_div a hc]

theorem entry_and_mask {c : Nat} (a k : Nat) (hc : c < 2 ^ k) :
    (2 ^ k * a + c) &&& (2 ^ k - 1) = c := by
  rw [and_low, digit_mod a hc]

theorem and_two_pow_eq (x j : Nat) : x &&& 2 ^ j = if x.testBit j then 2 ^ j else 0 := by
  apply Nat.eq_of_testBit_eq
  intro i
  rw [Nat.testBit_and]
  rcases hb : x.testBit j with _ | _
  · by_cases h : i = j
    · subst h; simp [hb]
    · simp [Nat.testBit_two_pow_of_ne (fun hh => h hh.symm), Nat.zero_testBit]
  · by_cases h : i = j
    · subst h; simp [hb, Nat.testBit_two_pow_self]
    · simp [Nat.testBit_two_pow_of_ne (fun hh => h hh.symm)]

theorem digit_testBit {c k : Nat} (a : Nat) (hc : c < 2 ^ k) :
    (2 ^ k * a + c).testBit k = decide (a % 2 = 1) := by
  rw [Nat.testBit_mul_pow_two_add _ hc k]
  simp [Nat.testBit_zero]

theorem unot_eq_xor {x : Nat} (hx : x < W) : unot x = (2 ^ 64 - 1) ^^^ x := by
  rw [unot, Nat.mod_eq_of_lt hx, xor_all_ones (W_eq ▸ hx), W_eq]

theorem unot_testBit {x : Nat} (hx : x < W) {i : Nat} (hi : i < 64) :
    (unot x).testBit i = !(x.testBit i) := by
  rw [unot_eq_xor hx, Nat.testBit_xor, Nat.testBit_two_pow_sub_one]
  simp [hi]

theorem unot_and_full {x : Nat} (o : Nat) (ho : o + 1 < 64) (hx : x < W) :
    unot x &&& full o = if x.testBit (o + 1) then 0 else full o := by
  rw [full, and_two_pow_eq, unot_testBit hx ho]
  rcases x.testBit (o + 1) <;> simp

/-! ### Sizes and power facts -/

theorem F2_eq (o : Nat) : F2 o = 2 * full o := by
  rw [F2, full, pow_succ]
  ring

theorem full_eq (o : Nat) : full o = 2 * half o := by
  rw [full, half, pow_succ]
  ring

theorem half_pos (o : Nat) : 0 < half o := Nat.two_pow_pos o

theorem full_pos (o : Nat) : 0 < full o := Nat.two_pow_pos (o + 1)

theorem F2_pos (o : Nat) : 0 < F2 o := Nat.two_pow_pos (o + 2)

theorem F2_le (o : Nat) (h : o ≤ 60) : F2 o ≤ 2 ^ 62 := by
  rw [F2]
  exact Nat.pow_le_pow_right (by norm_num) (by omega)

theorem full_lt_W (o : Nat) (h : o ≤ 60) : full o < W := by
  have : full o ≤ 2 ^ 61 := by
    rw [full]; exact Nat.pow_le_pow_right (by norm_num) (by omega)
  rw [W_eq]
  calc full o ≤ 2 ^ 61 := this
    _ < 2 ^ 64 := by norm_num

theorem F2_lt_W (o : Nat) (h : o ≤ 60) : F2 o < W := by
  have := F2_le o h
  rw [W_eq]
  calc F2 o ≤ 2 ^ 62 := this
    _ < 2 ^ 64 := by norm_num

theorem full_dvd_W (o : Nat) (h : o ≤ 60) : full o ∣ W := by
  rw [full, W_eq]
  exact pow_dvd_pow 2 (by omega)

theorem F2_dvd_W (o : Nat) (h : o ≤ 60) : F2 o ∣ W := by
  rw [F2, W_eq]
  exact pow_dvd_pow 2 (by omega)

theorem W_pos : 0 < W := by norm_num [W]

/-! ### Canonical arithmetic forms of the cell encodings

Every cell value that occurs in a sequentially reachable ring is of the
shape `2^(o+2) * C + c` where `C` is the cycle number of a position and
`c < 2^(o+2)` encodes the payload-and-flag part: `full + i` for a safe
live index, `i` for a fill-flavour live index, `2^(o+2) - 1` for a safe
consumed cell, `full - 1` for a fill-flavour consumed cell. -/

/-- The aligned cycle part of position `s`. -/
def cbase (o s : Nat) : Nat := 2 ^ (o + 2) * (2 * s % W / 2 ^ (o + 2))

theorem cycleVal_eq (o s : Nat) : cycleVal o s = cbase o s + (F2 o - 1) := by
  rw [cycleVal, F2, cbase, or_low]

theorem cbase_full (o s : Nat) :
    cbase o s = 2 ^ (o + 1) * (2 * (2 * s % W / 2 ^ (o + 2))) := by
  rw [cbase, pow_succ]
  ring

theorem F2_sub_one_lt (o : Nat) : F2 o - 1 < 2 ^ (o + 2) := by
  have := F2_pos o
  rw [F2] at *
  omega

theorem full_lt_F2 (o : Nat) : full o < 2 ^ (o + 2) := by
  have h := F2_eq o
  have := full_pos o
  rw [F2] at h
  omega

theorem liveVal_eq (o s : Nat) {i : Nat} (hi : i < full o) :
    liveVal o s i = cbase o s + (full o + i) := by
  have hvlt : full o - 1 - i < 2 ^ (o + 2) := by
    have := full_lt_F2 o
    omega
  have hfl : full o - 1 < full o := Nat.sub_lt (full_pos o) one_pos
  have hv : i ^^^ (full o - 1) = full o - 1 - i := by
    rw [Nat.xor_comm]
    rw [full]
    exact xor_all_ones (by rw [full] at hi; exact hi)
  rw [liveVal, hv, cycleVal_eq, cbase]
  conv_lhs =>
    rw [show full o - 1 - i = 2 ^ (o + 2) * 0 + (full o - 1 - i) by ring]
  rw [digits_xor _ 0 (F2_sub_one_lt o) hvlt, Nat.xor_zero]
  have h2 : F2 o - 1 ^^^ (full o - 1 - i) = F2 o - 1 - (full o - 1 - i) := by
    rw [F2]
    exact xor_all_ones hvlt
  rw [h2]
  have hF := F2_eq o
  have := full_pos o
  congr 1
  omega

theorem liveVal_full_form (o s : Nat) {i : Nat} (hi : i < full o) :
    liveVal o s i = 2 ^ (o + 1) * (2 * (2 * s % W / 2 ^ (o + 2)) + 1) + i := by
  rw [liveVal_eq o s hi, cbase_full, full]
  ring

theorem cycleVal_full_form (o s : Nat) :
    cycleVal o s = 2 ^ (o + 1) * (2 * (2 * s % W / 2 ^ (o + 2)) + 1) + (full o - 1) := by
  rw [cycleVal_eq, cbase_full]
  have hF := F2_eq o
  have := full_pos o
  rw [full] at *
  have : (2 : Nat) ^ (o + 1) * (2 * (2 * s % W / 2 ^ (o + 2)) + 1) =
      2 ^ (o + 1) * (2 * (2 * s % W / 2 ^ (o + 2))) + 2 ^ (o + 1) := by ring
  omega

theorem odd_xor_one (m : Nat) : (2 * m + 1) ^^^ 1 = 2 * m := by
  have h := digits_xor (k := 1) m 0 (b := 1) (d := 1) one_lt_two one_lt_two
  simpa using h

/-- Clearing the `full` bit of a value whose `full` bit is set. -/
theorem xor_full_bit (o m : Nat) {c : Nat} (hc : c < 2 ^ (o + 1)) :
    (2 ^ (o + 1) * (2 * m + 1) + c) ^^^ full o = 2 ^ (o + 1) * (2 * m) + c := by
  have h1 : full o = 2 ^ (o + 1) * 1 + 0 := by rw [full]; ring
  rw [h1, digits_xor _ 1 hc (Nat.two_pow_pos (o + 1)), Nat.xor_zero, odd_xor_one]

theorem full_sub_one_lt (o : Nat) : full o - 1 < 2 ^ (o + 1) := by
  have := full_pos o
  rw [full] at *
  omega

/-- The fill-flavour (unsafe) live entry: the `full` bit cleared. -/
theorem liveVal_unsafe_eq (o s : Nat) {i : Nat} (hi : i < full o) :
    liveVal o s i ^^^ full o = 2 ^ (o + 1) * (2 * (2 * s % W / 2 ^ (o + 2))) + i := by
  rw [liveVal_full_form o s hi]
  exact xor_full_bit o _ (by rw [full] at hi; exact hi)

/-- The fill-flavour (unsafe) consumed entry. -/
theorem cycleVal_unsafe_eq (o s : Nat) :
    cycleVal o s ^^^ full o =
      2 ^ (o + 1) * (2 * (2 * s % W / 2 ^ (o + 2))) + (full o - 1) := by
  rw [cycleVal_full_form]
  exact xor_full_bit o _ (full_sub_one_lt o)

/-- `RING_EMPTY_VAL` in base-`full` digit form: the multiplier is odd. -/
theorem empty_decomp (o : Nat) (h : o ≤ 60) :
    RING_EMPTY_VAL = 2 ^ (o + 1) * (2 * (2 ^ (62 - o) - 1) + 1) + (2 ^ (o + 1) - 1) := by
  have h1 : (2 : Nat) ^ (o + 1) * 2 ^ (63 - o) = 2 ^ 64 := by
    rw [← pow_add]
    congr 1
    omega
  have h2 : (2 : Nat) ^ (63 - o) = 2 * 2 ^ (62 - o) := by
    rw [← pow_succ']
    congr 1
    omega
  have h3 := Nat.two_pow_pos (62 - o)
  have h4 := Nat.two_pow_pos (o + 1)
  rw [RING_EMPTY_VAL, W_eq]
  have h5 : 2 * (2 ^ (62 - o) - 1) + 1 = 2 ^ (63 - o) - 1 := by omega
  have h6 : (2 : Nat) ^ (o + 1) ≤ 2 ^ 64 := Nat.pow_le_pow_right (by norm_num) (by omega)
  rw [h5, Nat.mul_sub_one, h1]
  omega

/-- `RING_EMPTY_VAL` in base-`F2` digit form. -/
theorem empty_decomp_F2 (o : Nat) (h : o ≤ 60) :
    RING_EMPTY_VAL = 2 ^ (o + 2) * (2 ^ (62 - o) - 1) + (2 ^ (o + 2) - 1) := by
  have h1 : (2 : Nat) ^ (o + 2) * 2 ^ (62 - o) = 2 ^ 64 := by
    rw [← pow_add]
    congr 1
    omega
  have h3 := Nat.two_pow_pos (62 - o)
  have h4 := Nat.two_pow_pos (o + 2)
  have h6 : (2 : Nat) ^ (o + 2) ≤ 2 ^ 64 := Nat.pow_le_pow_right (by norm_num) (by omega)
  rw [RING_EMPTY_VAL, W_eq, Nat.mul_sub_one, h1]
  omega

/-! ### Wrapping-arithmetic and `usize -> isize` helpers -/

theorem uadd_small {a b : Nat} (h : a + b < W) : uadd a b = a + b := by
  rw [uadd, Nat.mod_eq_of_lt h]

theorem usub_small {a b : Nat} (ha : a < W) (hb : b ≤ a) : usub a b = a - b := by
  have hbW : b < W := lt_of_le_of_lt hb ha
  rw [usub, Nat.mod_eq_of_lt ha, Nat.mod_eq_of_lt hbW]
  have h1 : a + (W - b) = W + (a - b) := by omega
  rw [h1, Nat.add_mod_left, Nat.mod_eq_of_lt (by omega)]

theorem usub_wrap {a b : Nat} (ha : a < W) (hb : b < W) (h : a < b) :
    usub a b = a + W - b := by
  rw [usub, Nat.mod_eq_of_lt ha, Nat.mod_eq_of_lt hb, Nat.mod_eq_of_lt (by omega)]
  omega

theorem toIsize_of_lt {a : Nat} (h : a < 2 ^ 63) : toIsize a = (a : Int) := by
  have haW : a < W := by
    rw [W_eq]
    calc a < 2 ^ 63 := h
      _ < 2 ^ 64 := by norm_num
  unfold toIsize
  rw [Nat.mod_eq_of_lt haW, if_pos h]

theorem toIsize_of_ge {a : Nat} (hW : a < W) (h : 2 ^ 63 ≤ a) : toIsize a = (a : Int) - W := by
  unfold toIsize
  rw [Nat.mod_eq_of_lt hW, if_neg (by omega)]

theorem toIsize_neg_of_ge {a : Nat} (hW : a < W) (h : 2 ^ 63 ≤ a) : toIsize a < 0 := by
  rw [toIsize_of_ge hW h]
  have h1 : (a : Int) < W := by exact_mod_cast hW
  omega

theorem toIsize_nonpos_of_ge {a : Nat} (hW : a < W) (h : 2 ^ 63 ≤ a) : toIsize a ≤ 0 :=
  le_of_lt (toIsize_neg_of_ge hW h)

theorem toIsize_nonneg_of_lt {a : Nat} (h : a % W < 2 ^ 63) : 0 ≤ toIsize a := by
  unfold toIsize
  rw [if_pos h]
  exact Int.ofNat_nonneg _

theorem mod_W_mod_full {o : Nat} (h : o ≤ 60) (x : Nat) : x % W % full o = x % full o :=
  Nat.mod_mod_of_dvd x (full_dvd_W o h)

theorem half_lt_W {o : Nat} (h : o ≤ 60) : half o < W := by
  have h1 : half o ≤ 2 ^ 60 := by
    rw [half]
    exact Nat.pow_le_pow_right (by norm_num) h
  rw [W_eq]
  calc half o ≤ 2 ^ 60 := h1
    _ < 2 ^ 64 := by norm_num

/-! ### Bridges from the code's helpers to the arithmetic forms -/

theorem get_nr_entries_eq {o : Nat} (h : o ≤ 60) : Ring.get_nr_entries o = half o := by
  rw [Ring.get_nr_entries, shl, Nat.mod_eq_of_lt (show o < 64 by omega), Nat.one_shiftLeft,
    ← half, Nat.mod_eq_of_lt (half_lt_W h)]

theorem get_nr_cells_eq {o : Nat} (h : o ≤ 60) : Ring.get_nr_cells o = full o := by
  rw [Ring.get_nr_cells, shl, Nat.mod_eq_of_lt (show o + 1 < 64 by omega), Nat.one_shiftLeft,
    ← full, Nat.mod_eq_of_lt (full_lt_W o h)]

theorem usub_full_one {o : Nat} (h : o ≤ 60) : usub (Ring.get_nr_cells o) 1 = full o - 1 := by
  rw [get_nr_cells_eq h]
  exact usub_small (full_lt_W o h) (full_pos o)

theorem usub_half_one {o : Nat} (h : o ≤ 60) : usub (Ring.get_nr_entries o) 1 = half o - 1 := by
  rw [get_nr_entries_eq h]
  exact usub_small (half_lt_W h) (half_pos o)

theorem mask_F2 {o : Nat} (h : o ≤ 60) : usub (umul 2 (Ring.get_nr_cells o)) 1 = F2 o - 1 := by
  rw [get_nr_cells_eq h, umul]
  have h2 : 2 * full o = F2 o := (F2_eq o).symm
  rw [h2, Nat.mod_eq_of_lt (F2_lt_W o h)]
  exact usub_small (F2_lt_W o h) (F2_pos o)

theorem thFull_lt (o : Nat) (h : o ≤ 60) : half o + full o - 1 < 2 ^ 63 := by
  have h1 : half o ≤ 2 ^ 60 := by rw [half]; exact Nat.pow_le_pow_right (by norm_num) h
  have h2 : full o ≤ 2 ^ 61 := by rw [full]; exact Nat.pow_le_pow_right (by norm_num) (by omega)
  have : (2 : Nat) ^ 60 + 2 ^ 61 < 2 ^ 63 := by norm_num
  omega

theorem get_threshold_eq {o : Nat} (h : o ≤ 60) :
    Ring.get_threshold (Ring.get_nr_entries o) (Ring.get_nr_cells o) = thFull o := by
  have h1 : half o + full o < W := by
    have := thFull_lt o h
    have h2 := half_pos o
    rw [W_eq]
    have h3 : (2 : Nat) ^ 63 < 2 ^ 64 := by norm_num
    omega
  rw [Ring.get_threshold, get_nr_entries_eq h, get_nr_cells_eq h, uadd_small h1,
    usub_small h1 (by have := half_pos o; omega),
    toIsize_of_lt (thFull_lt o h), thFull]
  have h2 := half_pos o
  omega

theorem cycle_bridge {o : Nat} (h : o ≤ 60) (s : Nat) :
    shl (s % W) 1 ||| usub (umul 2 (Ring.get_nr_cells o)) 1 = cycleVal o s := by
  rw [mask_F2 h, cycleVal, F2]
  congr 1
  rw [shl, Nat.shiftLeft_eq, show (1 : Nat) % 64 = 1 from rfl, pow_one, Nat.mod_mul_mod,
    mul_comm s 2]

/-- `Ring.map idx full (ORDER+1)` lands on the cell `mapC o (idx % full)`:
the valid-order arithmetic form of the cell permutation. -/
theorem map_bridge {o : Nat} (h4 : 4 ≤ o) (h60 : o ≤ 60) (x : Nat) :
    Ring.map x (Ring.get_nr_cells o) (o + 1) = mapC o (x % full o) := by
  have hfW := full_lt_W o h60
  have hf16 : full o = 16 * 2 ^ (o - 3) := by
    rw [full, show (16 : Nat) = 2 ^ 4 by norm_num, ← pow_add]
    congr 1
    omega
  have hdvd3 : (2 : Nat) ^ (o - 3) ∣ full o := by
    rw [full]
    exact pow_dvd_pow 2 (by omega)
  have hsh : usub (o + 1) RING_MIN_ORDER = o - 3 := by
    have h1 : RING_MIN_ORDER = 4 := rfl
    have h2 : o + 1 < W := by
      rw [W_eq]
      calc o + 1 ≤ 61 := by omega
        _ < 2 ^ 64 := by norm_num
    rw [h1, usub_small h2 (by omega)]
    omega
  have hmask : full o - 1 = 2 ^ (o + 1) - 1 := by rw [full]
  rw [Ring.map, usub_full_one h60, hsh]
  have e1 : x &&& (full o - 1) = x % full o := by
    rw [hmask, and_low, ← full]
  have e2 : shr (x % full o) (o - 3) = x % full o / 2 ^ (o - 3) := by
    rw [shr, Nat.mod_eq_of_lt (show o - 3 < 64 by omega),
      Nat.mod_eq_of_lt (lt_trans (Nat.mod_lt x (full_pos o)) hfW), Nat.shiftRight_eq_div_pow]
  have e3 : shl x RING_MIN_ORDER &&& (full o - 1) = 16 * (x % 2 ^ (o - 3)) := by
    rw [show RING_MIN_ORDER = 4 from rfl, shl, show (4 : Nat) % 64 = 4 from rfl,
      Nat.shiftLeft_eq, hmask, and_low,
      Nat.mod_mod_of_dvd _ (show (2 : Nat) ^ (o + 1) ∣ W from by
        rw [W_eq]; exact pow_dvd_pow 2 (by omega))]
    have h7 : (2 : Nat) ^ (o + 1) = 16 * 2 ^ (o - 3) := by
      rw [show o + 1 = 4 + (o - 3) by omega, pow_add]
      norm_num
    rw [mul_comm x (2 ^ 4), show (2 : Nat) ^ 4 = 16 by norm_num, h7, Nat.mul_mod_mul_left]
  rw [e1, e2, e3]
  have hA : x % full o / 2 ^ (o - 3) < 16 := by
    have h1 : x % full o < 2 ^ (o - 3) * 16 := by
      rw [mul_comm, ← hf16]
      exact Nat.mod_lt x (full_pos o)
    exact Nat.div_lt_of_lt_mul h1
  have e4 : x % full o / 2 ^ (o - 3) ||| 16 * (x % 2 ^ (o - 3)) =
      16 * (x % 2 ^ (o - 3)) + x % full o / 2 ^ (o - 3) := by
    have hb : x % full o / 2 ^ (o - 3) < 2 ^ 4 := hA
    have h5 : x % full o / 2 ^ (o - 3) = 2 ^ 4 * 0 + x % full o / 2 ^ (o - 3) := by ring
    have h6 : 16 * (x % 2 ^ (o - 3)) = 2 ^ 4 * (x % 2 ^ (o - 3)) + 0 := by norm_num
    rw [h5, h6, digits_or 0 (x % 2 ^ (o - 3)) hb (Nat.two_pow_pos 4)]
    simp
  rw [e4, mapC, Nat.mod_mod_of_dvd x hdvd3]
  omega

/-- The value permutation used by `fill`. -/
theorem fill_val_bridge {o : Nat} (h4 : 4 ≤ o) (h60 : o ≤ 60) {n : Nat} (hn : n < half o) :
    Ring.map (uadd (Ring.get_nr_cells o) n) (Ring.get_nr_entries o) o = rotV o n := by
  have hhW := half_lt_W h60
  have hfW := full_lt_W o h60
  have hfn : full o + n < W := by
    have h1 : full o ≤ 2 ^ 61 := by rw [full]; exact Nat.pow_le_pow_right (by norm_num) (by omega)
    have h2 : half o ≤ 2 ^ 60 := by rw [half]; exact Nat.pow_le_pow_right (by norm_num) h60
    rw [W_eq]
    have : (2 : Nat) ^ 61 + 2 ^ 60 < 2 ^ 64 := by norm_num
    omega
  have hh16 : half o = 16 * 2 ^ (o - 4) := by
    rw [half, show (16 : Nat) = 2 ^ 4 by norm_num, ← pow_add]
    congr 1
    omega
  have hdvd4 : (2 : Nat) ^ (o - 4) ∣ half o := by
    rw [half]
    exact pow_dvd_pow 2 (by omega)
  have hsh : usub o RING_MIN_ORDER = o - 4 := by
    have h1 : RING_MIN_ORDER = 4 := rfl
    have h2 : o < W := by
      rw [W_eq]
      calc o ≤ 60 := h60
        _ < 2 ^ 64 := by norm_num
    rw [h1, usub_small h2 (by omega)]
  have hmask : half o - 1 = 2 ^ o - 1 := by rw [half]
  rw [Ring.map, usub_half_one h60, hsh, get_nr_cells_eq h60, uadd_small hfn]
  have e1 : full o + n &&& (half o - 1) = n := by
    rw [hmask, and_low]
    have h5 : full o + n = 2 ^ o * 2 + n := by
      rw [full_eq, half]
      ring
    rw [h5, Nat.mul_add_mod, Nat.mod_eq_of_lt (by rw [← half]; exact hn)]
  have e2 : shr n (o - 4) = n / 2 ^ (o - 4) := by
    rw [shr, Nat.mod_eq_of_lt (show o - 4 < 64 by omega),
      Nat.mod_eq_of_lt (lt_trans hn hhW), Nat.shiftRight_eq_div_pow]
  have e3 : shl (full o + n) RING_MIN_ORDER &&& (half o - 1) = 16 * (n % 2 ^ (o - 4)) := by
    rw [show RING_MIN_ORDER = 4 from rfl, shl, show (4 : Nat) % 64 = 4 from rfl,
      Nat.shiftLeft_eq, hmask, and_low,
      Nat.mod_mod_of_dvd _ (show (2 : Nat) ^ o ∣ W from by
        rw [W_eq]; exact pow_dvd_pow 2 (by omega))]
    have h5 : (full o + n) * 2 ^ 4 = 2 ^ o * 32 + 16 * n := by
      rw [full_eq, half]
      ring
    have h7 : (2 : Nat) ^ o = 16 * 2 ^ (o - 4) := by
      conv_lhs => rw [show o = 4 + (o - 4) by omega]
      rw [pow_add]
      norm_num
    rw [h5, Nat.mul_add_mod, h7, Nat.mul_mod_mul_left]
  rw [e1, e2, e3]
  have hA : n / 2 ^ (o - 4) < 16 := by
    have h1 : n < 2 ^ (o - 4) * 16 := by
      rw [mul_comm, ← hh16]
      exact hn
    exact Nat.div_lt_of_lt_mul h1
  have e4 : n / 2 ^ (o - 4) ||| 16 * (n % 2 ^ (o - 4)) =
      16 * (n % 2 ^ (o - 4)) + n / 2 ^ (o - 4) := by
    have hb : n / 2 ^ (o - 4) < 2 ^ 4 := hA
    have h5 : n / 2 ^ (o - 4) = 2 ^ 4 * 0 + n / 2 ^ (o - 4) := by ring
    have h6 : 16 * (n % 2 ^ (o - 4)) = 2 ^ 4 * (n % 2 ^ (o - 4)) + 0 := by norm_num
    rw [h5, h6, digits_or 0 (n % 2 ^ (o - 4)) hb (Nat.two_pow_pos 4)]
    simp
  rw [e4, rotV]
  omega

/-! ### List access helpers -/

theorem getD_set_self {l : List Nat} {i : Nat} (h : i < l.length) (v : Nat) :
    (l.set i v).getD i 0 = v := by
  rw [List.getD_eq_getElem?_getD, List.getElem?_set_self h]
  rfl

theorem getD_set_ne {l : List Nat} {i j : Nat} (h : i ≠ j) (v : Nat) :
    (l.set i v).getD j 0 = l.getD j 0 := by
  rw [List.getD_eq_getElem?_getD, List.getElem?_set_ne h, ← List.getD_eq_getElem?_getD]

theorem getD_replicate {n i : Nat} (h : i < n) (v : Nat) :
    (List.replicate n v).getD i 0 = v := by
  rw [List.getD_eq_getElem?_getD, List.getElem?_replicate, if_pos h]
  rfl

/-! ### `mapC`, `unmapC` and `rotV` are bijections -/

theorem full_16 {o : Nat} (h4 : 4 ≤ o) : full o = 16 * 2 ^ (o - 3) := by
  rw [full, show (16 : Nat) = 2 ^ 4 by norm_num, ← pow_add]
  congr 1
  omega

theorem half_16 {o : Nat} (h4 : 4 ≤ o) : half o = 16 * 2 ^ (o - 4) := by
  rw [half, show (16 : Nat) = 2 ^ 4 by norm_num, ← pow_add]
  congr 1
  omega

theorem mapC_lt {o m : Nat} (h4 : 4 ≤ o) (hm : m < full o) : mapC o m < full o := by
  have hf16 := full_16 h4
  have h1 : m / 2 ^ (o - 3) < 16 := by
    refine Nat.div_lt_of_lt_mul ?_
    rw [mul_comm, ← hf16]
    exact hm
  have h2 : m % 2 ^ (o - 3) < 2 ^ (o - 3) := Nat.mod_lt _ (Nat.two_pow_pos _)
  rw [mapC, hf16]
  omega

theorem unmapC_lt {o p : Nat} (h4 : 4 ≤ o) (hp : p < full o) : unmapC o p < full o := by
  have hf16 := full_16 h4
  have h1 : p % 16 < 16 := Nat.mod_lt _ (by norm_num)
  have h2 : p / 16 < 2 ^ (o - 3) := by
    refine Nat.div_lt_of_lt_mul ?_
    rw [← hf16]
    exact hp
  rw [unmapC, hf16]
  have h3 : p % 16 * 2 ^ (o - 3) ≤ 15 * 2 ^ (o - 3) := by
    exact Nat.mul_le_mul_right _ (by omega)
  omega

theorem unmapC_mapC {o m : Nat} (h4 : 4 ≤ o) (hm : m < full o) : unmapC o (mapC o m) = m := by
  have hf16 := full_16 h4
  have h1 : m / 2 ^ (o - 3) < 16 := by
    refine Nat.div_lt_of_lt_mul ?_
    rw [mul_comm, ← hf16]
    exact hm
  rw [mapC, unmapC, Nat.add_mul_mod_self_left, Nat.mod_eq_of_lt h1,
    Nat.add_mul_div_left _ _ (by norm_num : (0:Nat) < 16), Nat.div_eq_of_lt h1]
  rw [Nat.zero_add, Nat.div_add_mod']

theorem mapC_unmapC {o p : Nat} (h4 : 4 ≤ o) (hp : p < full o) : mapC o (unmapC o p) = p := by
  have hf16 := full_16 h4
  have h2 : p / 16 < 2 ^ (o - 3) := by
    refine Nat.div_lt_of_lt_mul ?_
    rw [← hf16]
    exact hp
  rw [unmapC, mapC, Nat.add_comm (p % 16 * 2 ^ (o - 3)) (p / 16),
    Nat.add_mul_div_right _ _ (Nat.two_pow_pos (o - 3)), Nat.div_eq_of_lt h2,
    Nat.add_mul_mod_self_right, Nat.mod_eq_of_lt h2, Nat.zero_add]
  exact Nat.mod_add_div p 16

theorem mapC_inj {o m m' : Nat} (h4 : 4 ≤ o) (hm : m < full o) (hm' : m' < full o)
    (h : mapC o m = mapC o m') : m = m' := by
  have := unmapC_mapC h4 hm
  have := unmapC_mapC h4 hm'
  rw [← unmapC_mapC h4 hm, ← unmapC_mapC h4 hm', h]

theorem rotV_lt {o n : Nat} (h4 : 4 ≤ o) (hn : n < half o) : rotV o n < half o := by
  have hh16 := half_16 h4
  have h1 : n / 2 ^ (o - 4) < 16 := by
    refine Nat.div_lt_of_lt_mul ?_
    rw [mul_comm, ← hh16]
    exact hn
  have h2 : n % 2 ^ (o - 4) < 2 ^ (o - 4) := Nat.mod_lt _ (Nat.two_pow_pos _)
  rw [rotV, hh16]
  omega

/-- The inverse of `rotV`. -/
def rotVinv (o m : Nat) : Nat := m % 16 * 2 ^ (o - 4) + m / 16

theorem rotVinv_rotV {o n : Nat} (h4 : 4 ≤ o) (hn : n < half o) : rotVinv o (rotV o n) = n := by
  have hh16 := half_16 h4
  have h1 : n / 2 ^ (o - 4) < 16 := by
    refine Nat.div_lt_of_lt_mul ?_
    rw [mul_comm, ← hh16]
    exact hn
  rw [rotV, rotVinv, Nat.add_mul_mod_self_left, Nat.mod_eq_of_lt h1,
    Nat.add_mul_div_left _ _ (by norm_num : (0:Nat) < 16), Nat.div_eq_of_lt h1]
  rw [Nat.zero_add, Nat.div_add_mod']

theorem rotV_rotVinv {o m : Nat} (h4 : 4 ≤ o) (hm : m < half o) : rotV o (rotVinv o m) = m := by
  have hh16 := half_16 h4
  have h2 : m / 16 < 2 ^ (o - 4) := by
    refine Nat.div_lt_of_lt_mul ?_
    rw [← hh16]
    exact hm
  rw [rotVinv, rotV, Nat.add_comm (m % 16 * 2 ^ (o - 4)) (m / 16),
    Nat.add_mul_div_right _ _ (Nat.two_pow_pos (o - 4)), Nat.div_eq_of_lt h2,
    Nat.add_mul_mod_self_right, Nat.mod_eq_of_lt h2, Nat.zero_add]
  exact Nat.mod_add_div m 16

theorem rotVinv_lt {o m : Nat} (h4 : 4 ≤ o) (hm : m < half o) : rotVinv o m < half o := by
  have hh16 := half_16 h4
  have h1 : m % 16 < 16 := Nat.mod_lt _ (by norm_num)
  have h2 : m / 16 < 2 ^ (o - 4) := by
    refine Nat.div_lt_of_lt_mul ?_
    rw [← hh16]
    exact hm
  rw [rotVinv, hh16]
  have h3 : m % 16 * 2 ^ (o - 4) ≤ 15 * 2 ^ (o - 4) := Nat.mul_le_mul_right _ (by omega)
  omega

/-! ### Governing-position lemmas -/

theorem gov_congr {o T n : Nat} (hn : n < T) : ∃ k, gov o T n = n + full o * k := by
  refine ⟨(T - 1 - n) / full o, ?_⟩
  rw [gov]
  have h1 := Nat.div_add_mod (T - 1 - n) (full o)
  omega

theorem gov_lt_T {o T n : Nat} (hn : n < T) : gov o T n < T := by
  rw [gov]
  omega

theorem gov_ge {o T n : Nat} (_hn : n < T) : T ≤ gov o T n + full o := by
  rw [gov]
  have h1 : (T - 1 - n) % full o < full o := Nat.mod_lt _ (full_pos o)
  omega

/-- Advancing the tail by one does not move the governing position of
residues other than `T % full`. -/
theorem gov_succ_ne {o T n : Nat} (hn : n < T) (hne : n % full o ≠ T % full o) :
    gov o (T + 1) n = gov o T n := by
  have hfp := full_pos o
  have h0 : (T - n) % full o ≠ 0 := by
    intro h
    have hd : full o ∣ T - n := Nat.dvd_of_mod_eq_zero h
    obtain ⟨k, hk⟩ := hd
    have : T = n + full o * k := by omega
    rw [this, Nat.add_mul_mod_self_left] at hne
    exact hne rfl
  have h1 : T - n = (T - 1 - n) + 1 := by omega
  have h2 : (T - 1 - n) % full o < full o := Nat.mod_lt _ hfp
  have h3 : (T - n) % full o = (T - 1 - n) % full o + 1 := by
    have hd := Nat.div_add_mod (T - 1 - n) (full o)
    by_cases hr : (T - 1 - n) % full o + 1 < full o
    · have h5 : T - n = full o * ((T - 1 - n) / full o) + ((T - 1 - n) % full o + 1) := by
        omega
      rw [h5, Nat.mul_add_mod, Nat.mod_eq_of_lt hr]
    · exfalso
      apply h0
      have h5 : T - n = full o * ((T - 1 - n) / full o) + full o := by omega
      rw [h5, ← Nat.mul_succ, Nat.mul_mod_right]
  have h4 : (T - 1 - n) % full o ≤ T - 1 - n := Nat.mod_le _ _
  rw [gov, gov, show T + 1 - 1 = T from rfl]
  omega

theorem gov_succ_self {o T : Nat} : gov o (T + 1) (T % full o) = T := by
  rw [gov]
  have h1 : T - T % full o = full o * (T / full o) := by
    have := Nat.div_add_mod T (full o)
    omega
  rw [show T + 1 - 1 = T from rfl, h1, Nat.mul_mod_right]
  have := Nat.mod_le T (full o)
  omega

/-! ### Store-sequence characterization -/

theorem storeSeq_length (f : Nat → Nat × Nat) :
    ∀ (n : Nat) (cs : List Nat), (Ring.storeSeq f n cs).length = cs.length := by
  intro n
  induction n with
  | zero => intro cs; rfl
  | succ n ih =>
    intro cs
    rw [Ring.storeSeq, List.length_set, ih]

theorem storeSeq_getD_ne (f : Nat → Nat × Nat) {p : Nat} :
    ∀ (n : Nat) (cs : List Nat), (∀ j, j < n → (f j).1 ≠ p) →
      (Ring.storeSeq f n cs).getD p 0 = cs.getD p 0 := by
  intro n
  induction n with
  | zero => intro cs _; rfl
  | succ n ih =>
    intro cs h
    rw [Ring.storeSeq, getD_set_ne (h n (by omega)), ih cs (fun j hj => h j (by omega))]

theorem storeSeq_getD_hit (f : Nat → Nat × Nat) {p j0 : Nat} :
    ∀ (n : Nat) (cs : List Nat), j0 < n → (f j0).1 = p → p < cs.length →
      (∀ j, j0 < j → j < n → (f j).1 ≠ p) →
      (Ring.storeSeq f n cs).getD p 0 = (f j0).2 := by
  intro n
  induction n with
  | zero => intro cs h; omega
  | succ n ih =>
    intro cs hj0 hfj0 hlen hafter
    rw [Ring.storeSeq]
    by_cases hj : j0 = n
    · subst hj
      rw [hfj0, getD_set_self (by rw [storeSeq_length]; exact hlen)]
    · have hne : (f n).1 ≠ p := hafter n (by omega) (by omega)
      rw [getD_set_ne hne, ih cs (by omega) hfj0 hlen (fun j h1 h2 => hafter j h1 (by omega))]

/-! ### The initial ring states -/

theorem gov_small {o T n : Nat} (hn : n < T) (hT : T ≤ n + full o) : gov o T n = n := by
  rw [gov, Nat.mod_eq_of_lt (by omega)]
  omega

/-- The initial resident-index assignment of the filled free ring. -/
def f0 (o : Nat) : Nat → Nat := fun s => rotV o s

/-- The initial cell flavour: fill-installed cells are unsafe. -/
def u0 (o : Nat) : Nat → Bool := fun p => decide (unmapC o p < half o)

theorem seqRing_new {o : Nat} (_h4 : 4 ≤ o) (h60 : o ≤ 60) :
    SeqRing o 0 (Ring.new o) 0 0 (fun _ => 0) (fun _ => false) := by
  have hth0 : (0 : Int) ≤ thFull o := by
    rw [thFull]
    have := half_pos o
    have := full_pos o
    omega
  refine
    { hb := Nat.zero_le _
      hbT := le_refl 0
      hhead := by show (0 : Nat) = 0 % W; rw [Nat.zero_mod]
      htail := by show (0 : Nat) = 0 % W; rw [Nat.zero_mod]
      hHT := le_refl 0
      hwin := Nat.zero_le _
      hf := fun s hs hs' => absurd (lt_of_le_of_lt hs hs') (lt_irrefl 0)
      hlen := by
        show (List.replicate (Ring.get_nr_cells o) RING_EMPTY_VAL).length = full o
        rw [List.length_replicate, get_nr_cells_eq h60]
      hcells := ?_
      huLive := fun p hp hlt _ => absurd hlt (Nat.not_lt_zero _)
      huEmpty := fun p hp hn => rfl
      hthLo := by show (-1 : Int) ≤ -1; exact le_refl _
      hthHi := by show (-1 : Int) ≤ thFull o; omega
      hthNE := fun h => absurd h (lt_irrefl 0) }
  intro p hp
  show (List.replicate (Ring.get_nr_cells o) RING_EMPTY_VAL).getD p 0 = _
  rw [cellContent, if_pos (Nat.zero_le _)]
  exact getD_replicate (by rw [get_nr_cells_eq h60]; exact hp) _

theorem fill_threshold (o : Nat) (r : Ring) :
    (Ring.fill o r).threshold
      = Ring.get_threshold (Ring.get_nr_entries o) (Ring.get_nr_cells o) := by
  rw [Ring.fill]

theorem seqRing_fill {o : Nat} (h4 : 4 ≤ o) (h60 : o ≤ 60) :
    SeqRing o (half o) (Ring.fill o (Ring.new o)) 0 (half o) (f0 o) (u0 o) := by
  have hfull2 : full o = 2 * half o := full_eq o
  have hhp := half_pos o
  have hfp := full_pos o
  have hlen0 : (Ring.new o).cells.length = full o := by
    show (List.replicate (Ring.get_nr_cells o) RING_EMPTY_VAL).length = full o
    rw [List.length_replicate, get_nr_cells_eq h60]
  have hcell : ∀ p, p < full o →
      (Ring.fill o (Ring.new o)).cells.getD p 0 = cellContent o 0 (half o) (f0 o) (u0 o) p := by
    intro p hp
    have hn := unmapC_lt h4 hp
    set n := unmapC o p with hndef
    have hpn : mapC o n = p := mapC_unmapC h4 hp
    show (Ring.storeSeq
        (fun k => (Ring.map (Ring.get_nr_entries o + k) (Ring.get_nr_cells o) (o + 1),
          RING_EMPTY_VAL))
        (Ring.get_nr_cells o - Ring.get_nr_entries o)
        (Ring.storeSeq
          (fun m => (Ring.map m (Ring.get_nr_cells o) (o + 1),
            Ring.map (uadd (Ring.get_nr_cells o) m) (Ring.get_nr_entries o) o))
          (Ring.get_nr_entries o) (Ring.new o).cells)).getD p 0 = _
    by_cases hcase : n < half o
    · -- written by the first loop at position n, untouched by the second loop
      have h2 : ∀ k, k < Ring.get_nr_cells o - Ring.get_nr_entries o →
          Ring.map (Ring.get_nr_entries o + k) (Ring.get_nr_cells o) (o + 1) ≠ p := by
        intro k hk
        rw [map_bridge h4 h60, get_nr_entries_eq h60]
        rw [get_nr_cells_eq h60, get_nr_entries_eq h60] at hk
        have hlt : half o + k < full o := by omega
        rw [Nat.mod_eq_of_lt hlt]
        intro hcon
        have := mapC_inj h4 hlt (by omega : n < full o) (by rw [hcon, hpn])
        omega
      rw [storeSeq_getD_ne _ _ _ h2]
      have h3 : Ring.map n (Ring.get_nr_cells o) (o + 1) = p := by
        rw [map_bridge h4 h60, Nat.mod_eq_of_lt (by omega : n < full o), hpn]
      have h4' : ∀ j, n < j → j < Ring.get_nr_entries o →
          Ring.map j (Ring.get_nr_cells o) (o + 1) ≠ p := by
        intro j hj hj'
        rw [get_nr_entries_eq h60] at hj'
        rw [map_bridge h4 h60, Nat.mod_eq_of_lt (by omega : j < full o)]
        intro hcon
        have := mapC_inj h4 (by omega : j < full o) (by omega : n < full o) (by rw [hcon, hpn])
        omega
      rw [storeSeq_getD_hit _ _ _ (by rw [get_nr_entries_eq h60]; exact hcase) h3
        (by rw [hlen0]; exact hp) h4']
      rw [fill_val_bridge h4 h60 hcase]
      rw [cellContent, ← hndef, if_neg (by omega), gov_small hcase (by omega),
        if_neg (by omega)]
      have hu : u0 o p = true := by
        rw [u0, ← hndef, decide_eq_true_eq]
        exact hcase
      rw [hu, if_pos rfl]
      have hrb : rotV o n < half o := rotV_lt h4 hcase
      have hrf : rotV o n < full o := by omega
      show rotV o n = liveVal o n (rotV o n) ^^^ full o
      have h2n : 2 * n % W = 2 * n := by
        rw [Nat.mod_eq_of_lt]
        have := full_lt_W o h60
        omega
      have h2nd : 2 * n / 2 ^ (o + 2) = 0 := by
        refine Nat.div_eq_of_lt ?_
        have := full_lt_F2 o
        omega
      rw [liveVal_unsafe_eq o n hrf, h2n, h2nd]
      simp
    · -- overwritten with the empty sentinel by the second loop
      have hkey : n - half o < Ring.get_nr_cells o - Ring.get_nr_entries o := by
        rw [get_nr_cells_eq h60, get_nr_entries_eq h60]
        omega
      have h3 : Ring.map (Ring.get_nr_entries o + (n - half o)) (Ring.get_nr_cells o) (o + 1)
          = p := by
        rw [map_bridge h4 h60, get_nr_entries_eq h60,
          show half o + (n - half o) = n by omega,
          Nat.mod_eq_of_lt (by omega : n < full o), hpn]
      have h4' : ∀ j, n - half o < j → j < Ring.get_nr_cells o - Ring.get_nr_entries o →
          Ring.map (Ring.get_nr_entries o + j) (Ring.get_nr_cells o) (o + 1) ≠ p := by
        intro j hj hj'
        rw [get_nr_cells_eq h60, get_nr_entries_eq h60] at hj'
        rw [map_bridge h4 h60, get_nr_entries_eq h60,
          Nat.mod_eq_of_lt (by omega : half o + j < full o)]
        intro hcon
        have := mapC_inj h4 (by omega : half o + j < full o) (by omega : n < full o)
          (by rw [hcon, hpn])
        omega
      rw [storeSeq_getD_hit _ _ _ hkey h3
        (by rw [storeSeq_length, hlen0]; exact hp) h4']
      rw [cellContent, ← hndef, if_pos (by omega)]
  refine
    { hb := le_refl _
      hbT := le_refl _
      hhead := by show (0 : Nat) = 0 % W; rw [Nat.zero_mod]
      htail := by
        show Ring.get_nr_entries o = half o % W
        rw [get_nr_entries_eq h60, Nat.mod_eq_of_lt (half_lt_W h60)]
      hHT := Nat.zero_le _
      hwin := by omega
      hf := fun s _ hs => rotV_lt h4 hs
      hlen := by
        show (Ring.storeSeq _ _ (Ring.storeSeq _ _ (Ring.new o).cells)).length = full o
        rw [storeSeq_length, storeSeq_length, hlen0]
      hcells := hcell
      huLive := ?_
      huEmpty := ?_
      hthLo := by
        rw [fill_threshold, get_threshold_eq h60, thFull]
        omega
      hthHi := by rw [fill_threshold, get_threshold_eq h60]
      hthNE := fun _ => by rw [fill_threshold, get_threshold_eq h60] }
  · intro p hp hlt hge
    rw [gov_small hlt (by omega)]
    rfl
  · intro p hp hn
    rw [u0, decide_eq_false_iff_not]
    omega

/-! ### Cycle-tag comparisons -/

theorem usub_lt_W (a b : Nat) : usub a b < W := Nat.mod_lt _ W_pos

theorem usub_self (a : Nat) : usub a a = 0 := by
  unfold usub
  simp only [W]
  omega

theorem toIsize_zero : toIsize 0 = 0 := by
  unfold toIsize
  norm_num [W]

theorem cycleVal_lt_W {o : Nat} (h60 : o ≤ 60) (s : Nat) : cycleVal o s < W := by
  rw [cycleVal, W_eq]
  refine Nat.or_lt_two_pow ?_ ?_
  · rw [← W_eq]
    exact Nat.mod_lt _ W_pos
  · have := F2_le o h60
    rw [F2] at this
    calc 2 ^ (o + 2) - 1 < 2 ^ (o + 2) := Nat.sub_lt (Nat.two_pow_pos _) one_pos
      _ ≤ 2 ^ 62 := this
      _ < 2 ^ 64 := by norm_num

/-- The aligned cycle part as the wrapped double counter with its low part
rounded off. -/
theorem cycleVal_arith (o s : Nat) :
    cycleVal o s = 2 * s % W - 2 * s % W % F2 o + (F2 o - 1) := by
  rw [cycleVal_eq]
  have h1 := Nat.div_add_mod (2 * s % W) (F2 o)
  have h2 : cbase o s = F2 o * (2 * s % W / F2 o) := rfl
  omega

/-- Comparing the cycle tag of a position with the tag of the position one
lap later: the wrapped difference is `-2*full`. -/
theorem usub_cycle_prev {o s t : Nat} (h60 : o ≤ 60) (hst : s + full o = t) :
    usub (cycleVal o s) (cycleVal o t) = W - F2 o := by
  have hF2W := F2_lt_W o h60
  have hF2p := F2_pos o
  have hF2le := F2_le o h60
  have hdvd := F2_dvd_W o h60
  have h2t : 2 * t = 2 * s + F2 o := by
    rw [← hst, F2_eq, full_eq]
    ring
  have hBA : 2 * t % W = (2 * s % W + F2 o) % W := by
    rw [h2t, Nat.add_mod, Nat.mod_eq_of_lt hF2W]
  have hmodBA : 2 * t % W % F2 o = 2 * s % W % F2 o := by
    rw [hBA, Nat.mod_mod_of_dvd _ hdvd, Nat.add_mod_right]
  have hxeq := cycleVal_arith o s
  have hyeq := cycleVal_arith o t
  have hAmod := Nat.mod_le (2 * s % W) (F2 o)
  have hBmod := Nat.mod_le (2 * t % W) (F2 o)
  unfold usub
  simp only [W] at *
  omega

theorem cycleVal_prev_ne {o s t : Nat} (h60 : o ≤ 60) (hst : s + full o = t) :
    cycleVal o s ≠ cycleVal o t := by
  intro h
  have h1 := usub_cycle_prev h60 hst
  rw [h, usub_self] at h1
  have := F2_lt_W o h60
  omega

theorem swo_cycle_prev_neg {o s t : Nat} (h60 : o ≤ 60) (hst : s + full o = t) :
    sub_with_overflow (cycleVal o s) (cycleVal o t) < 0 := by
  rw [sub_with_overflow, usub_cycle_prev h60 hst]
  have h1 := F2_le o h60
  have h2 := F2_pos o
  refine toIsize_neg_of_ge (by rw [W_eq] at *; omega) ?_
  rw [W_eq] at *
  have : (2 : Nat) ^ 62 + 2 ^ 63 ≤ 2 ^ 64 := by norm_num
  omega

/-- The tag of a position in the first lap: the bare mask. -/
theorem cycleVal_small {o s : Nat} (h60 : o ≤ 60) (hs : s < full o) :
    cycleVal o s = F2 o - 1 := by
  have h1 : 2 * s < F2 o := by
    have := F2_eq o
    omega
  have h2 : 2 * s % W = 2 * s := Nat.mod_eq_of_lt (lt_trans h1 (F2_lt_W o h60))
  rw [cycleVal_arith, h2, Nat.mod_eq_of_lt h1]
  omega

theorem swo_empty_neg {o t : Nat} (h60 : o ≤ 60) (ht : t < full o) :
    sub_with_overflow RING_EMPTY_VAL (cycleVal o t) < 0 := by
  have hF2W := F2_lt_W o h60
  have hF2p := F2_pos o
  have hF2le := F2_le o h60
  have hE : RING_EMPTY_VAL = W - 1 := rfl
  rw [sub_with_overflow, cycleVal_small h60 ht]
  have ha1 : W - 1 < W := by rw [W_eq]; omega
  have hb1 : F2 o - 1 ≤ W - 1 := by
    rw [W_eq] at hF2W ⊢
    omega
  have h1 : usub RING_EMPTY_VAL (F2 o - 1) = W - F2 o := by
    rw [hE, usub_small ha1 hb1]
    rw [W_eq] at hF2W ⊢
    omega
  rw [h1]
  refine toIsize_neg_of_ge (by rw [W_eq] at *; omega) ?_
  rw [W_eq] at *
  have : (2 : Nat) ^ 62 + 2 ^ 63 ≤ 2 ^ 64 := by norm_num
  omega

theorem empty_ne_cycleVal {o t : Nat} (h60 : o ≤ 60) (ht : t < full o) :
    RING_EMPTY_VAL ≠ cycleVal o t := by
  have hE : RING_EMPTY_VAL = W - 1 := rfl
  have hF2W := F2_lt_W o h60
  have hF2p := F2_pos o
  rw [hE, cycleVal_small h60 ht]
  omega

/-- The head-versus-claimed-tail comparison in `enqueue`'s unsafe-cell
test: with the head at most one lap behind the claimed tail, the wrapped
difference is non-positive. -/
theorem swo_head_tail {o H T : Nat} (h60 : o ≤ 60) (hHT : H ≤ T) (hwin : T - H ≤ full o) :
    sub_with_overflow (H % W) (T % W) ≤ 0 := by
  have hfW := full_lt_W o h60
  have hfle : full o ≤ 2 ^ 61 := by
    rw [full]
    exact Nat.pow_le_pow_right (by norm_num) (by omega)
  rcases Nat.eq_or_lt_of_le hHT with heq | hlt
  · subst heq
    rw [sub_with_overflow, usub_self, toIsize_zero]
  · have h1 : usub (H % W) (T % W) = W - (T - H) := by
      unfold usub
      simp only [W] at *
      omega
    rw [sub_with_overflow, h1]
    refine toIsize_nonpos_of_ge (by rw [W_eq] at *; have := full_pos o; omega) ?_
    rw [W_eq] at *
    have : (2 : Nat) ^ 61 + 2 ^ 63 ≤ 2 ^ 64 := by norm_num
    omega

/-- The tail-versus-head-plus-one comparison on an empty ring. -/
theorem swo_tail_head_succ (T : Nat) : sub_with_overflow (T % W) (uadd (T % W) 1) ≤ 0 := by
  have h2 : usub (T % W) (uadd (T % W) 1) = W - 1 := by
    unfold usub uadd
    simp only [W]
    omega
  rw [sub_with_overflow, h2]
  refine toIsize_nonpos_of_ge (by rw [W_eq]; omega) ?_
  rw [W_eq]
  norm_num

/-- The governing position of the head residue. -/
theorem gov_at_head {o H T : Nat} (hHT : H < T) (hwin : T - H ≤ full o) :
    gov o T (H % full o) = H := by
  have hfp := full_pos o
  have hmle : H % full o ≤ H := Nat.mod_le _ _
  have hsplit : T - 1 - H % full o = (T - 1 - H) + full o * (H / full o) := by
    have := Nat.div_add_mod H (full o)
    omega
  rw [gov, hsplit, Nat.add_mul_mod_self_left, Nat.mod_eq_of_lt (by omega)]
  omega

/-! ### Shapes of cell entries -/

theorem uadd_mod_one (x : Nat) : uadd (x % W) 1 = (x + 1) % W := by
  rw [uadd, Nat.add_mod, Nat.mod_mod_of_dvd _ dvd_rfl, ← Nat.add_mod]

theorem or_one_le {b : Nat} (C : Nat) (hb : b ≤ 1) : (2 * C + b) ||| 1 = 2 * C + 1 := by
  have h1 : (1 : Nat) = 2 ^ 1 * 0 + 1 := by norm_num
  have h2 : 2 * C + b = 2 ^ 1 * C + b := by norm_num
  rw [h1, h2, digits_or C 0 (by omega) (by norm_num)]
  have h3 : b ||| 1 = 1 := by interval_cases b <;> rfl
  simp [h3]

/-- The `ecycle` of a cycle-tagged entry recovers the full cycle tag. -/
theorem or_mask_F2 {o b c : Nat} (C : Nat) (hb : b ≤ 1) (hc : c < 2 ^ (o + 1)) :
    (2 ^ (o + 1) * (2 * C + b) + c) ||| (F2 o - 1) = 2 ^ (o + 2) * C + (F2 o - 1) := by
  have h1 : 2 ^ (o + 1) * (2 * C + b) + c = 2 ^ (o + 2) * C + (2 ^ (o + 1) * b + c) := by
    rw [pow_succ]
    ring
  have h2 : 2 ^ (o + 1) * b + c < 2 ^ (o + 2) := by
    have h3 : (2 : Nat) ^ (o + 2) = 2 ^ (o + 1) * 2 := by rw [pow_succ]
    have h4 : 2 ^ (o + 1) * b ≤ 2 ^ (o + 1) := by
      calc 2 ^ (o + 1) * b ≤ 2 ^ (o + 1) * 1 := Nat.mul_le_mul_left _ hb
        _ = 2 ^ (o + 1) := Nat.mul_one _
    omega
  have h5 : F2 o - 1 = 2 ^ (o + 2) - 1 := rfl
  rw [h1, h5, entry_or_mask _ _ h2]

/-- Setting the `full` bit of an entry. -/
theorem or_full_bit {o b c : Nat} (C : Nat) (hb : b ≤ 1) (hc : c < 2 ^ (o + 1)) :
    (2 ^ (o + 1) * (2 * C + b) + c) ||| full o = 2 ^ (o + 1) * (2 * C + 1) + c := by
  have h1 : full o = 2 ^ (o + 1) * 1 + 0 := by rw [full]; ring
  rw [h1, digits_or _ 1 hc (Nat.two_pow_pos _)]
  rw [or_one_le C hb]
  simp

/-- Decoding an entry by masking with `full - 1`. -/
theorem and_mask_full {o c : Nat} (m : Nat) (hc : c < 2 ^ (o + 1)) :
    (2 ^ (o + 1) * m + c) &&& (full o - 1) = c := by
  have h1 : full o - 1 = 2 ^ (o + 1) - 1 := rfl
  rw [h1, entry_and_mask _ _ hc]

/-- Consuming an entry by or-ing in `full - 1`. -/
theorem or_mask_full {o c : Nat} (m : Nat) (hc : c < 2 ^ (o + 1)) :
    (2 ^ (o + 1) * m + c) ||| (full o - 1) = 2 ^ (o + 1) * m + (full o - 1) := by
  have h1 : full o - 1 = 2 ^ (o + 1) - 1 := rfl
  rw [h1, entry_or_mask _ _ hc]

theorem shape_lt_W {o b c : Nat} (_h60 : o ≤ 60) (C : Nat)
    (hCb : 2 ^ (o + 1) * (2 * C + b) + c ≤ RING_EMPTY_VAL) :
    2 ^ (o + 1) * (2 * C + b) + c < W := by
  have h1 : RING_EMPTY_VAL = W - 1 := rfl
  have := W_pos
  omega

/-- The reconciliation mark computed by the forced-resolution path:
`(!entry) & full` is `0` on a safe entry and `full` on a fill-flavour
entry. -/
theorem unot_and_full_shape {o b c : Nat} (h60 : o ≤ 60) (C : Nat) (hb : b ≤ 1)
    (hc : c < 2 ^ (o + 1)) (hW : 2 ^ (o + 1) * (2 * C + b) + c < W) :
    unot (2 ^ (o + 1) * (2 * C + b) + c) &&& full o =
      if b = 1 then 0 else full o := by
  have h1 := unot_and_full (x := 2 ^ (o + 1) * (2 * C + b) + c) o (by omega) hW
  rw [h1, digit_testBit _ hc]
  have h2 : (2 * C + b) % 2 = b := by omega
  rw [h2]
  interval_cases b <;> simp

/-! ### Characterisations of one sequential ring operation -/

theorem gov_at_tail {o T : Nat} (hT : full o ≤ T) : gov o T (T % full o) = T - full o := by
  have hfp := full_pos o
  have h1 : T % full o < full o := Nat.mod_lt _ hfp
  have h2 := Nat.div_add_mod T (full o)
  have hq : 1 ≤ T / full o := (Nat.one_le_div_iff hfp).mpr hT
  obtain ⟨k, hk⟩ : ∃ k, T / full o = k + 1 := ⟨T / full o - 1, by omega⟩
  rw [hk, Nat.mul_succ] at h2
  rw [gov]
  have h3 : T - 1 - T % full o = full o * k + (full o - 1) := by omega
  rw [h3, Nat.mul_add_mod, Nat.mod_eq_of_lt (by omega)]
  omega

theorem isizeDec_eq {t : Int} (h : t ≠ -(2 ^ 63 : Int)) : isizeDec t = t - 1 := by
  rw [isizeDec, if_neg h]

/-- When the governed position of the head cell is live, a probe hits:
it consumes the cell (keeping its flavour bit) and returns the resident
index. -/
theorem probe_hit {o b H T : Nat} {f : Nat → Nat} {u : Nat → Bool} {r : Ring}
    (h4 : 4 ≤ o) (h60 : o ≤ 60) (hS : SeqRing o b r H T f u) (hlt : H < T) :
    Ring.probe (Ring.get_nr_cells o) (cycleVal o H) (mapC o (H % full o)) r.cells =
      Ring.Probe.hit (f H) (r.cells.set (mapC o (H % full o))
        (if H < b then cycleVal o H ^^^ full o else cycleVal o H)) := by
  have hfp := full_pos o
  have hmod : H % full o < full o := Nat.mod_lt _ hfp
  have hp : mapC o (H % full o) < full o := mapC_lt h4 hmod
  have hn : unmapC o (mapC o (H % full o)) = H % full o := unmapC_mapC h4 hmod
  have hnT : H % full o < T := lt_of_le_of_lt (Nat.mod_le _ _) hlt
  have hgov : gov o T (H % full o) = H := gov_at_head hlt hS.hwin
  have hu : u (mapC o (H % full o)) = decide (H < b) := by
    have h1 := hS.huLive _ hp (by rw [hn]; exact hnT) (by rw [hn, hgov])
    rw [hn, hgov] at h1
    exact h1
  have hfH : f H < half o := hS.hf H (le_refl H) hlt
  have hfFull : f H < full o := by
    have h2 := full_eq o
    omega
  have hfHf : f H < 2 ^ (o + 1) := hfFull
  have hcell := hS.hcells _ hp
  rw [cellContent, hn] at hcell
  rw [if_neg (by omega : ¬ T ≤ H % full o), hgov, if_neg (lt_irrefl H), hu] at hcell
  simp only [decide_eq_true_eq] at hcell
  simp only [Ring.probe]
  rw [hcell, mask_F2 h60, usub_full_one h60]
  rcases Nat.lt_or_ge H b with hflav | hflav
  · simp only [if_pos hflav]
    rw [liveVal_unsafe_eq o H hfFull]
    have h0 : 2 ^ (o + 1) * (2 * (2 * H % W / 2 ^ (o + 2))) + f H
        = 2 ^ (o + 1) * (2 * (2 * H % W / 2 ^ (o + 2)) + 0) + f H := by ring
    rw [h0]
    have hecyc : (2 ^ (o + 1) * (2 * (2 * H % W / 2 ^ (o + 2)) + 0) + f H) ||| (F2 o - 1)
        = cycleVal o H := by
      rw [or_mask_F2 _ (by norm_num) hfHf, cycleVal_eq, cbase_full, pow_succ]
      ring
    rw [hecyc, if_pos rfl, and_mask_full _ hfHf, or_mask_full _ hfHf]
    have hv : 2 ^ (o + 1) * (2 * (2 * H % W / 2 ^ (o + 2)) + 0) + (full o - 1)
        = cycleVal o H ^^^ full o := by
      rw [cycleVal_unsafe_eq]
      ring
    rw [hv]
  · simp only [if_neg (by omega : ¬ H < b)]
    rw [Nat.xor_zero, liveVal_full_form o H hfFull]
    have hecyc : (2 ^ (o + 1) * (2 * (2 * H % W / 2 ^ (o + 2)) + 1) + f H) ||| (F2 o - 1)
        = cycleVal o H := by
      rw [or_mask_F2 _ (by norm_num) hfHf, cycleVal_eq, cbase_full, pow_succ]
      ring
    rw [hecyc, if_pos rfl, and_mask_full _ hfHf, or_mask_full _ hfHf, ← cycleVal_full_form]

/-- `dequeue` with a negative threshold returns `None` without touching
the ring. -/
theorem dequeue_fast {o fuel : Nat} {r : Ring} (h : r.threshold < 0) :
    Ring.dequeue o fuel r = some (none, r) := by
  rw [Ring.dequeue, if_pos h]

/-- `dequeue` on a non-empty sequential ring: it returns the index
resident at position `H`, consumes the head cell and advances the head;
tail and threshold are unchanged. -/
theorem dequeue_hit_eq {o b H T : Nat} {f : Nat → Nat} {u : Nat → Bool} {r : Ring}
    (h4 : 4 ≤ o) (h60 : o ≤ 60) (hS : SeqRing o b r H T f u) (hlt : H < T) (fuel : Nat) :
    Ring.dequeue o (fuel + 1) r = some (some (f H),
      { cells := r.cells.set (mapC o (H % full o))
          (if H < b then cycleVal o H ^^^ full o else cycleVal o H),
        head := (H + 1) % W, tail := r.tail, threshold := r.threshold }) := by
  have hth : r.threshold = thFull o := hS.hthNE hlt
  have hpos : ¬ r.threshold < 0 := by
    rw [hth, thFull]
    have h1 := half_pos o
    have h2 := full_pos o
    omega
  rw [Ring.dequeue, if_neg hpos]
  simp only [Ring.dequeueGo, hS.hhead, cycle_bridge h60, map_bridge h4 h60,
    mod_W_mod_full h60, probe_hit h4 h60 hS hlt, uadd_mod_one]

/-- Probing the head cell of an empty sequential ring misses and leaves a
hold: the head cycle tag, carrying the flavour bit of the previous
occupant. -/
theorem probe_empty {o b H : Nat} {f : Nat → Nat} {u : Nat → Bool} {r : Ring}
    (h4 : 4 ≤ o) (h60 : o ≤ 60) (hS : SeqRing o b r H H f u) :
    Ring.probe (Ring.get_nr_cells o) (cycleVal o H) (mapC o (H % full o)) r.cells =
      Ring.Probe.miss (r.cells.set (mapC o (H % full o))
        (if u (mapC o (H % full o)) then cycleVal o H ^^^ full o else cycleVal o H)) := by
  have hfp := full_pos o
  have hmod : H % full o < full o := Nat.mod_lt _ hfp
  have hp : mapC o (H % full o) < full o := mapC_lt h4 hmod
  have hn : unmapC o (mapC o (H % full o)) = H % full o := unmapC_mapC h4 hmod
  have hfm1 : full o - 1 < 2 ^ (o + 1) := full_sub_one_lt o
  have hcell := hS.hcells _ hp
  rw [cellContent, hn] at hcell
  simp only [Ring.probe]
  rw [mask_F2 h60, usub_full_one h60, get_nr_cells_eq h60]
  rcases Nat.lt_or_ge H (full o) with hHf | hHf
  · -- the head cell has never been written: it is empty
    have hHm : H % full o = H := Nat.mod_eq_of_lt hHf
    have hu : u (mapC o (H % full o)) = false := hS.huEmpty _ hp (by rw [hn]; omega)
    rw [if_pos (by omega : H ≤ H % full o)] at hcell
    have hune : RING_EMPTY_VAL ||| (F2 o - 1) = RING_EMPTY_VAL := by
      have hF2' : F2 o - 1 = 2 ^ (o + 2) - 1 := rfl
      conv_lhs => rw [empty_decomp_F2 o h60]
      rw [hF2', entry_or_mask _ (o + 2) (by have := Nat.two_pow_pos (o + 2); omega)]
      rw [← empty_decomp_F2 o h60]
    have hofull : RING_EMPTY_VAL ||| full o = RING_EMPTY_VAL := by
      conv_lhs => rw [empty_decomp o h60]
      rw [or_full_bit _ (le_refl 1) (by have := Nat.two_pow_pos (o + 1); omega)]
      rw [← empty_decomp o h60]
    have hunotE : unot RING_EMPTY_VAL = 0 := by
      have hE2 : RING_EMPTY_VAL = W - 1 := rfl
      rw [unot, hE2, Nat.mod_eq_of_lt (show W - 1 < W by have := W_pos; omega)]
      omega
    rw [hcell, hune, if_neg (empty_ne_cycleVal h60 hHf), hofull]
    rw [if_neg (show ¬ RING_EMPTY_VAL ≠ RING_EMPTY_VAL from fun h => h rfl)]
    rw [hunotE, Nat.zero_and, Nat.xor_zero]
    rw [if_neg (not_le.mpr (swo_empty_neg h60 hHf))]
    rw [hu, if_neg Bool.false_ne_true]
  · -- the head cell holds a dead entry from the previous lap
    have hnH : H % full o < H := by omega
    have hgov : gov o H (H % full o) = H - full o := gov_at_tail hHf
    have hprev : H - full o + full o = H := by omega
    have hne := cycleVal_prev_ne h60 hprev
    have hswo := swo_cycle_prev_neg h60 hprev
    rw [if_neg (by omega : ¬ H ≤ H % full o), hgov, if_pos (by omega : H - full o < H)]
      at hcell
    cases hub : u (mapC o (H % full o)) with
    | false =>
      rw [hub, if_neg Bool.false_ne_true, Nat.xor_zero] at hcell
      have hecyc : cycleVal o (H - full o) ||| (F2 o - 1) = cycleVal o (H - full o) := by
        have hF2' : F2 o - 1 = 2 ^ (o + 2) - 1 := rfl
        conv_lhs => rw [cycleVal_eq, cbase]
        rw [hF2', entry_or_mask _ (o + 2) (by have := Nat.two_pow_pos (o + 2); omega)]
        rw [← hF2', ← cbase, ← cycleVal_eq]
      have hofull : cycleVal o (H - full o) ||| full o = cycleVal o (H - full o) := by
        conv_lhs => rw [cycleVal_full_form]
        rw [or_full_bit _ (le_refl 1) hfm1, ← cycleVal_full_form]
      have hWc : 2 ^ (o + 1) * (2 * (2 * (H - full o) % W / 2 ^ (o + 2)) + 1)
          + (full o - 1) < W := by
        rw [← cycleVal_full_form]
        exact cycleVal_lt_W h60 _
      have hnotand : unot (cycleVal o (H - full o)) &&& full o = 0 := by
        conv_lhs => rw [cycleVal_full_form]
        rw [unot_and_full_shape h60 _ (le_refl 1) hfm1 hWc]
        norm_num
      rw [hcell, hecyc, if_neg hne, hofull]
      rw [if_neg (show ¬ cycleVal o (H - full o) ≠ cycleVal o (H - full o) from
        fun h => h rfl)]
      rw [hnotand, Nat.xor_zero]
      rw [if_neg (not_le.mpr hswo)]
      rw [if_neg Bool.false_ne_true]
    | true =>
      rw [hub, if_pos rfl, cycleVal_unsafe_eq] at hcell
      have h0 : (2 : Nat) ^ (o + 1) * (2 * (2 * (H - full o) % W / 2 ^ (o + 2)))
            + (full o - 1)
          = 2 ^ (o + 1) * (2 * (2 * (H - full o) % W / 2 ^ (o + 2)) + 0)
            + (full o - 1) := by ring
      rw [h0] at hcell
      have hecyc : (2 ^ (o + 1) * (2 * (2 * (H - full o) % W / 2 ^ (o + 2)) + 0)
            + (full o - 1)) ||| (F2 o - 1) = cycleVal o (H - full o) := by
        rw [or_mask_F2 _ (by norm_num) hfm1, cycleVal_eq, cbase_full, pow_succ]
        ring
      have hofull : (2 ^ (o + 1) * (2 * (2 * (H - full o) % W / 2 ^ (o + 2)) + 0)
            + (full o - 1)) ||| full o = cycleVal o (H - full o) := by
        rw [or_full_bit _ (by norm_num) hfm1, ← cycleVal_full_form]
      have hWc : 2 ^ (o + 1) * (2 * (2 * (H - full o) % W / 2 ^ (o + 2)) + 0)
          + (full o - 1) < W := by
        have h1 := Nat.mul_le_mul_left ((2 : Nat) ^ (o + 1))
          (show 2 * (2 * (H - full o) % W / 2 ^ (o + 2)) + 0
              ≤ 2 * (2 * (H - full o) % W / 2 ^ (o + 2)) + 1 by omega)
        have h2 : 2 ^ (o + 1) * (2 * (2 * (H - full o) % W / 2 ^ (o + 2)) + 1)
            + (full o - 1) < W := by
          rw [← cycleVal_full_form]
          exact cycleVal_lt_W h60 _
        omega
      have hnotand : unot (2 ^ (o + 1) * (2 * (2 * (H - full o) % W / 2 ^ (o + 2)) + 0)
            + (full o - 1)) &&& full o = full o := by
        rw [unot_and_full_shape h60 _ (by norm_num) hfm1 hWc]
        norm_num
      rw [hcell, hecyc, if_neg hne, hofull]
      rw [if_neg (show ¬ cycleVal o (H - full o) ≠ cycleVal o (H - full o) from
        fun h => h rfl)]
      rw [hnotand]
      rw [if_neg (not_le.mpr hswo)]
      rw [if_pos rfl]

/-- `dequeue` on an empty sequential ring with non-negative threshold:
it returns `None`, leaves a hold mark at the head cell, advances both the
head and (through `catchup`) the tail, and decrements the threshold. -/
theorem dequeue_empty_eq {o b H : Nat} {f : Nat → Nat} {u : Nat → Bool} {r : Ring}
    (h4 : 4 ≤ o) (h60 : o ≤ 60) (hS : SeqRing o b r H H f u) (hth : 0 ≤ r.threshold)
    (fuel : Nat) :
    Ring.dequeue o (fuel + 1) r = some (none,
      { cells := r.cells.set (mapC o (H % full o))
          (if u (mapC o (H % full o)) then cycleVal o H ^^^ full o else cycleVal o H),
        head := (H + 1) % W, tail := (H + 1) % W, threshold := r.threshold - 1 }) := by
  rw [Ring.dequeue, if_neg (by omega : ¬ r.threshold < 0)]
  have hiso : isizeDec r.threshold = r.threshold - 1 := by
    refine isizeDec_eq ?_
    intro h
    rw [h] at hth
    norm_num at hth
  have hsw : sub_with_overflow (H % W) ((H + 1) % W) ≤ 0 := by
    have h1 := swo_tail_head_succ H
    rwa [uadd_mod_one] at h1
  simp only [Ring.dequeueGo, hS.hhead, hS.htail, cycle_bridge h60, map_bridge h4 h60,
    mod_W_mod_full h60, probe_empty h4 h60 hS, uadd_mod_one]
  rw [if_pos hsw, hiso]

/-- `enqueue` on a sequential ring with a free slot at the tail: the
first claimed cell is either empty or dead, so the CAS installs the
cycle-tagged index on the first iteration, the tail advances and the
threshold is reset to its full value. -/
theorem enqueue_eq {o b H T : Nat} {f : Nat → Nat} {u : Nat → Bool} {r : Ring}
    (h4 : 4 ≤ o) (h60 : o ≤ 60) (hS : SeqRing o b r H T f u) (hroom : T - H < full o)
    (i : Nat) (fuel : Nat) :
    Ring.enqueue o (fuel + 1) r i = some
      { cells := r.cells.set (mapC o (T % full o)) (liveVal o T i),
        head := r.head, tail := (T + 1) % W, threshold := thFull o } := by
  have hfp := full_pos o
  have hHT := hS.hHT
  have hmod : T % full o < full o := Nat.mod_lt _ hfp
  have hp : mapC o (T % full o) < full o := mapC_lt h4 hmod
  have hn : unmapC o (mapC o (T % full o)) = T % full o := unmapC_mapC h4 hmod
  have hfm1 : full o - 1 < 2 ^ (o + 1) := full_sub_one_lt o
  have hcell := hS.hcells _ hp
  rw [cellContent, hn] at hcell
  rw [Ring.enqueue, usub_full_one h60]
  simp only [Ring.enqueueGo, liveVal]
  rw [hS.hhead, hS.htail, cycle_bridge h60, map_bridge h4 h60, mod_W_mod_full h60,
    mask_F2 h60, get_threshold_eq h60, get_nr_cells_eq h60, hcell]
  rcases Nat.lt_or_ge T (full o) with hTf | hTf
  · -- the tail cell has never been written: it is empty
    have hTm : T % full o = T := Nat.mod_eq_of_lt hTf
    rw [if_pos (by omega : T ≤ T % full o)]
    have hune : RING_EMPTY_VAL ||| (F2 o - 1) = RING_EMPTY_VAL := by
      have hF2' : F2 o - 1 = 2 ^ (o + 2) - 1 := rfl
      conv_lhs => rw [empty_decomp_F2 o h60]
      rw [hF2', entry_or_mask _ (o + 2) (by have := Nat.two_pow_pos (o + 2); omega)]
      rw [← empty_decomp_F2 o h60]
    rw [hune, if_pos ⟨swo_empty_neg h60 hTf, Or.inl rfl⟩]
    rcases eq_or_ne r.threshold (thFull o) with hcase | hcase
    · rw [if_neg (not_ne_iff.mpr hcase), hcase, uadd_mod_one]
    · rw [if_pos hcase, uadd_mod_one]
  · -- the tail cell holds a dead entry from the previous lap
    have hgov : gov o T (T % full o) = T - full o := gov_at_tail hTf
    have hprev : T - full o + full o = T := by omega
    have hswo := swo_cycle_prev_neg h60 hprev
    rw [if_neg (by omega : ¬ T ≤ T % full o), hgov, if_pos (by omega : T - full o < H)]
    cases hub : u (mapC o (T % full o)) with
    | false =>
      rw [if_neg Bool.false_ne_true, Nat.xor_zero]
      have hecyc : cycleVal o (T - full o) ||| (F2 o - 1) = cycleVal o (T - full o) := by
        have hF2' : F2 o - 1 = 2 ^ (o + 2) - 1 := rfl
        conv_lhs => rw [cycleVal_eq, cbase]
        rw [hF2', entry_or_mask _ (o + 2) (by have := Nat.two_pow_pos (o + 2); omega)]
        rw [← hF2', ← cbase, ← cycleVal_eq]
      rw [hecyc, if_pos ⟨hswo, Or.inl rfl⟩]
      rcases eq_or_ne r.threshold (thFull o) with hcase | hcase
      · rw [if_neg (not_ne_iff.mpr hcase), hcase, uadd_mod_one]
      · rw [if_pos hcase, uadd_mod_one]
    | true =>
      rw [if_pos rfl, cycleVal_unsafe_eq]
      have h0 : (2 : Nat) ^ (o + 1) * (2 * (2 * (T - full o) % W / 2 ^ (o + 2)))
            + (full o - 1)
          = 2 ^ (o + 1) * (2 * (2 * (T - full o) % W / 2 ^ (o + 2)) + 0)
            + (full o - 1) := by ring
      rw [h0]
      have hecyc : (2 ^ (o + 1) * (2 * (2 * (T - full o) % W / 2 ^ (o + 2)) + 0)
            + (full o - 1)) ||| (F2 o - 1) = cycleVal o (T - full o) := by
        rw [or_mask_F2 _ (by norm_num) hfm1, cycleVal_eq, cbase_full, pow_succ]
        ring
      have hflip : 2 ^ (o + 1) * (2 * (2 * (T - full o) % W / 2 ^ (o + 2)) + 0)
            + (full o - 1) = cycleVal o (T - full o) ^^^ full o := by
        rw [cycleVal_unsafe_eq, h0]
      have hht : sub_with_overflow (H % W) (T % W) ≤ 0 :=
        swo_head_tail h60 hHT (by omega)
      rw [hecyc, if_pos ⟨hswo, Or.inr ⟨hflip, hht⟩⟩]
      rcases eq_or_ne r.threshold (thFull o) with hcase | hcase
      · rw [if_neg (not_ne_iff.mpr hcase), hcase, uadd_mod_one]
      · rw [if_pos hcase, uadd_mod_one]

/-! ### Preservation of the sequential ring invariant -/

/-- Consuming the head cell preserves the ring invariant with the head
advanced by one; the resident map and flavour map are unchanged. -/
theorem seqRing_dequeue_hit {o b H T : Nat} {f : Nat → Nat} {u : Nat → Bool} {r : Ring}
    (h4 : 4 ≤ o) (_h60 : o ≤ 60) (hS : SeqRing o b r H T f u) (hlt : H < T) :
    SeqRing o b
      { cells := r.cells.set (mapC o (H % full o))
          (if H < b then cycleVal o H ^^^ full o else cycleVal o H),
        head := (H + 1) % W, tail := r.tail, threshold := r.threshold }
      (H + 1) T f u := by
  have hfp := full_pos o
  have hmod : H % full o < full o := Nat.mod_lt _ hfp
  have hmodle : H % full o ≤ H := Nat.mod_le _ _
  have hnT : H % full o < T := by omega
  have hpstar : mapC o (H % full o) < full o := mapC_lt h4 hmod
  have hnstar : unmapC o (mapC o (H % full o)) = H % full o := unmapC_mapC h4 hmod
  have hgovH : gov o T (H % full o) = H := gov_at_head hlt hS.hwin
  have hustar : u (mapC o (H % full o)) = decide (H < b) := by
    have h1 := hS.huLive _ hpstar (by rw [hnstar]; omega) (by rw [hnstar, hgovH])
    rw [hnstar, hgovH] at h1
    exact h1
  refine { hb := hS.hb, hbT := hS.hbT, hhead := rfl, htail := hS.htail, hHT := hlt,
           hwin := by have := hS.hwin; omega,
           hf := fun s hs1 hs2 => hS.hf s (by omega) hs2,
           hlen := by rw [List.length_set]; exact hS.hlen,
           hthLo := hS.hthLo, hthHi := hS.hthHi, hthNE := fun _ => hS.hthNE hlt,
           hcells := ?_, huLive := ?_, huEmpty := ?_ }
  · intro p hp
    rcases eq_or_ne p (mapC o (H % full o)) with hpe | hpe
    · subst hpe
      rw [getD_set_self (by rw [hS.hlen]; exact hpstar)]
      rw [cellContent, hnstar, if_neg (by omega : ¬ T ≤ H % full o), hgovH,
        if_pos (by omega : H < H + 1), hustar]
      simp only [decide_eq_true_eq]
      rcases Nat.lt_or_ge H b with hflav | hflav
      · rw [if_pos hflav, if_pos hflav]
      · rw [if_neg (by omega : ¬ H < b), if_neg (by omega : ¬ H < b), Nat.xor_zero]
    · rw [getD_set_ne (Ne.symm hpe), hS.hcells p hp]
      rw [cellContent, cellContent]
      rcases le_or_lt T (unmapC o p) with hTn | hTn
      · rw [if_pos hTn, if_pos hTn]
      · rw [if_neg (by omega : ¬ T ≤ unmapC o p), if_neg (by omega : ¬ T ≤ unmapC o p)]
        have hnn : unmapC o p < full o := unmapC_lt h4 hp
        have hgne : gov o T (unmapC o p) ≠ H := by
          intro he
          obtain ⟨k, hk⟩ := gov_congr (o := o) hTn
          have h5 : H = unmapC o p + full o * k := by rw [← he, hk]
          have h6 : unmapC o p = H % full o := by
            rw [h5, Nat.add_mul_mod_self_left, Nat.mod_eq_of_lt hnn]
          apply hpe
          rw [← mapC_unmapC h4 hp, h6]
        have hgiff : gov o T (unmapC o p) < H ↔ gov o T (unmapC o p) < H + 1 := by omega
        exact congrArg
          (fun x => x ^^^ (if u p = true then full o else 0))
          (if_congr hgiff rfl rfl)
  · intro p hp hn2 hg
    exact hS.huLive p hp hn2 (by omega)
  · intro p hp hT2
    exact hS.huEmpty p hp hT2

/-- The empty-miss path (hold, catchup, threshold decrement) preserves
the ring invariant with both positions advanced past the hold. -/
theorem seqRing_dequeue_empty {o b H : Nat} {f : Nat → Nat} {u : Nat → Bool} {r : Ring}
    (h4 : 4 ≤ o) (hS : SeqRing o b r H H f u) (hth : 0 ≤ r.threshold) :
    SeqRing o b
      { cells := r.cells.set (mapC o (H % full o))
          (if u (mapC o (H % full o)) then cycleVal o H ^^^ full o else cycleVal o H),
        head := (H + 1) % W, tail := (H + 1) % W, threshold := r.threshold - 1 }
      (H + 1) (H + 1) f u := by
  have hfp := full_pos o
  have hmod : H % full o < full o := Nat.mod_lt _ hfp
  have hmodle : H % full o ≤ H := Nat.mod_le _ _
  have hpstar : mapC o (H % full o) < full o := mapC_lt h4 hmod
  have hnstar : unmapC o (mapC o (H % full o)) = H % full o := unmapC_mapC h4 hmod
  have hgov2 : gov o (H + 1) (H % full o) = H := gov_succ_self
  refine { hb := hS.hb, hbT := by have := hS.hbT; omega, hhead := rfl, htail := rfl,
           hHT := le_refl _,
           hwin := by omega,
           hf := fun s hs1 hs2 => absurd hs1 (by omega),
           hlen := by rw [List.length_set]; exact hS.hlen,
           hthLo := by show (-1 : Int) ≤ r.threshold - 1; omega,
           hthHi := by show r.threshold - 1 ≤ thFull o; have := hS.hthHi; omega,
           hthNE := fun h => absurd h (by omega),
           hcells := ?_, huLive := ?_, huEmpty := ?_ }
  · intro p hp
    rcases eq_or_ne p (mapC o (H % full o)) with hpe | hpe
    · subst hpe
      rw [getD_set_self (by rw [hS.hlen]; exact hpstar)]
      rw [cellContent, hnstar, if_neg (by omega : ¬ H + 1 ≤ H % full o), hgov2,
        if_pos (by omega : H < H + 1)]
      cases hub : u (mapC o (H % full o)) with
      | false =>
        rw [if_neg Bool.false_ne_true, if_neg Bool.false_ne_true, Nat.xor_zero]
      | true =>
        rw [if_pos rfl, if_pos rfl]
    · rw [getD_set_ne (Ne.symm hpe), hS.hcells p hp, cellContent, cellContent]
      have hnn : unmapC o p < full o := unmapC_lt h4 hp
      rcases le_or_lt (H + 1) (unmapC o p) with hTn | hTn
      · rw [if_pos (by omega : H ≤ unmapC o p), if_pos hTn]
      · have hneH : unmapC o p ≠ H := by
          intro he
          apply hpe
          rw [← mapC_unmapC h4 hp, he, Nat.mod_eq_of_lt (show H < full o by omega)]
        have hn_lt : unmapC o p < H := by omega
        rw [if_neg (by omega : ¬ H ≤ unmapC o p),
          if_neg (by omega : ¬ H + 1 ≤ unmapC o p)]
        have hne2 : unmapC o p % full o ≠ H % full o := by
          rw [Nat.mod_eq_of_lt hnn]
          intro he2
          apply hpe
          rw [← mapC_unmapC h4 hp, he2]
        have hgs : gov o (H + 1) (unmapC o p) = gov o H (unmapC o p) :=
          gov_succ_ne hn_lt hne2
        have hgl : gov o H (unmapC o p) < H := gov_lt_T hn_lt
        rw [hgs, if_pos hgl, if_pos (by omega : gov o H (unmapC o p) < H + 1)]
  · intro p hp hn2 hg
    exact absurd hg (by have := gov_lt_T (o := o) hn2; omega)
  · intro p hp hT2
    exact hS.huEmpty p hp (by omega)

/-- Installing a fresh index at the tail preserves the ring invariant
with the tail advanced: the new position `T` becomes resident with
index `i`, safe flavour. -/
theorem seqRing_enqueue {o b H T : Nat} {f : Nat → Nat} {u : Nat → Bool} {r : Ring}
    (h4 : 4 ≤ o) (hS : SeqRing o b r H T f u) (hroom : T - H < full o)
    {i : Nat} (hi : i < half o) :
    SeqRing o b
      { cells := r.cells.set (mapC o (T % full o)) (liveVal o T i),
        head := r.head, tail := (T + 1) % W, threshold := thFull o }
      H (T + 1) (fun s => if s = T then i else f s)
      (fun p => if p = mapC o (T % full o) then false else u p) := by
  have hfp := full_pos o
  have hmod : T % full o < full o := Nat.mod_lt _ hfp
  have hmodle : T % full o ≤ T := Nat.mod_le _ _
  have hHT := hS.hHT
  have hpstar : mapC o (T % full o) < full o := mapC_lt h4 hmod
  have hnstar : unmapC o (mapC o (T % full o)) = T % full o := unmapC_mapC h4 hmod
  have hgov2 : gov o (T + 1) (T % full o) = T := gov_succ_self
  refine { hb := hS.hb, hbT := by have := hS.hbT; omega, hhead := hS.hhead, htail := rfl,
           hHT := by omega,
           hwin := by omega,
           hf := ?_,
           hlen := by rw [List.length_set]; exact hS.hlen,
           hthLo := by
             show (-1 : Int) ≤ thFull o
             rw [thFull]
             have := half_pos o
             have := full_pos o
             omega,
           hthHi := le_refl _,
           hthNE := fun _ => rfl,
           hcells := ?_, huLive := ?_, huEmpty := ?_ }
  · intro s hs1 hs2
    rcases eq_or_ne s T with h | h
    · rw [if_pos h]
      exact hi
    · rw [if_neg h]
      exact hS.hf s hs1 (by omega)
  · intro p hp
    rcases eq_or_ne p (mapC o (T % full o)) with hpe | hpe
    · subst hpe
      rw [getD_set_self (by rw [hS.hlen]; exact hpstar)]
      simp only [cellContent, hnstar]
      rw [if_neg (by omega : ¬ T + 1 ≤ T % full o), hgov2,
        if_neg (by omega : ¬ T < H), if_pos rfl]
      simp
    · rw [getD_set_ne (Ne.symm hpe), hS.hcells p hp]
      simp only [cellContent]
      have hnn : unmapC o p < full o := unmapC_lt h4 hp
      have hneT : unmapC o p ≠ T := by
        intro he
        apply hpe
        rw [← mapC_unmapC h4 hp, he, Nat.mod_eq_of_lt (show T < full o by omega)]
      simp only [if_neg hpe]
      rcases le_or_lt (T + 1) (unmapC o p) with hTn | hTn
      · rw [if_pos (by omega : T ≤ unmapC o p), if_pos hTn]
      · have hn_lt : unmapC o p < T := by omega
        have hne2 : unmapC o p % full o ≠ T % full o := by
          rw [Nat.mod_eq_of_lt hnn]
          intro he2
          apply hpe
          rw [← mapC_unmapC h4 hp, he2]
        have hgs : gov o (T + 1) (unmapC o p) = gov o T (unmapC o p) :=
          gov_succ_ne hn_lt hne2
        have hgl : gov o T (unmapC o p) < T := gov_lt_T hn_lt
        rw [if_neg (by omega : ¬ T ≤ unmapC o p),
          if_neg (by omega : ¬ T + 1 ≤ unmapC o p), hgs]
        simp only [if_neg (show ¬ gov o T (unmapC o p) = T by omega)]
  · intro p hp hn2 hg
    rcases eq_or_ne p (mapC o (T % full o)) with hpe | hpe
    · subst hpe
      rw [hnstar, hgov2] at hg ⊢
      have hTb : ¬ T < b := by have := hS.hbT; omega
      simp [hTb]
    · simp only [if_neg hpe]
      have hneT : unmapC o p ≠ T := by
        intro he
        apply hpe
        have hnn : unmapC o p < full o := unmapC_lt h4 hp
        rw [← mapC_unmapC h4 hp, he, Nat.mod_eq_of_lt (show T < full o by omega)]
      have hnn : unmapC o p < full o := unmapC_lt h4 hp
      have hne2 : unmapC o p % full o ≠ T % full o := by
        rw [Nat.mod_eq_of_lt hnn]
        intro he2
        apply hpe
        rw [← mapC_unmapC h4 hp, he2]
      have hgs : gov o (T + 1) (unmapC o p) = gov o T (unmapC o p) :=
        gov_succ_ne (by omega) hne2
      rw [hgs] at hg ⊢
      exact hS.huLive p hp (by omega) hg
  · intro p hp hT2
    have hpe : p ≠ mapC o (T % full o) := by
      intro he
      rw [he, hnstar] at hT2
      omega
    simp only [if_neg hpe]
    exact hS.huEmpty p hp (by omega)

/-! ### Reading the resident indices off the cells -/

theorem full_sub_one_not_lt_half (o : Nat) : ¬ full o - 1 < half o := by
  have h1 := full_eq o
  have h2 := half_pos o
  omega

/-- Decoding a cell with `& (full - 1)` (as `dequeue` does) yields the
resident index at live positions and `full - 1` everywhere else. -/
theorem cellContent_decode {o H T : Nat} {f : Nat → Nat} {u : Nat → Bool} {p : Nat}
    (h60 : o ≤ 60) (hf : ∀ s, H ≤ s → s < T → f s < half o) (_hp : p < full o) :
    cellContent o H T f u p &&& (full o - 1) =
      if unmapC o p < T ∧ H ≤ gov o T (unmapC o p) then f (gov o T (unmapC o p))
      else full o - 1 := by
  have hfm1 : full o - 1 < 2 ^ (o + 1) := full_sub_one_lt o
  rw [cellContent]
  rcases le_or_lt T (unmapC o p) with hTn | hTn
  · rw [if_pos hTn,
      if_neg (by omega : ¬ (unmapC o p < T ∧ H ≤ gov o T (unmapC o p)))]
    conv_lhs => rw [empty_decomp o h60]
    rw [and_mask_full _ (by have := Nat.two_pow_pos (o + 1); omega)]
    rfl
  · rw [if_neg (by omega : ¬ T ≤ unmapC o p)]
    rcases lt_or_le (gov o T (unmapC o p)) H with hg | hg
    · rw [if_pos hg,
        if_neg (by omega : ¬ (unmapC o p < T ∧ H ≤ gov o T (unmapC o p)))]
      cases hub : u p with
      | false =>
        rw [if_neg Bool.false_ne_true, Nat.xor_zero]
        conv_lhs => rw [cycleVal_full_form]
        rw [and_mask_full _ hfm1]
      | true =>
        rw [if_pos rfl, cycleVal_unsafe_eq, and_mask_full _ hfm1]
    · have hfg : f (gov o T (unmapC o p)) < half o := hf _ hg (gov_lt_T hTn)
      have hfgf : f (gov o T (unmapC o p)) < 2 ^ (o + 1) := by
        have h2 := full_eq o
        have h3 : f (gov o T (unmapC o p)) < full o := by omega
        exact h3
      rw [if_neg (by omega : ¬ gov o T (unmapC o p) < H),
        if_pos (show unmapC o p < T ∧ H ≤ gov o T (unmapC o p) from ⟨hTn, hg⟩)]
      cases hub : u p with
      | false =>
        rw [if_neg Bool.false_ne_true, Nat.xor_zero]
        conv_lhs => rw [liveVal_full_form _ _ hfgf]
        rw [and_mask_full _ hfgf]
      | true =>
        rw [if_pos rfl, liveVal_unsafe_eq _ _ hfgf, and_mask_full _ hfgf]

/-- A ring whose cells are pointwise described by `cellContent` is the
tabulation of `cellContent` over the cell indices. -/
theorem cells_eq_map {o H T : Nat} {f : Nat → Nat} {u : Nat → Bool} {r : Ring}
    (hlen : r.cells.length = full o)
    (hcells : ∀ p, p < full o → r.cells.getD p 0 = cellContent o H T f u p) :
    r.cells = (List.range (full o)).map (cellContent o H T f u) := by
  apply List.ext_getElem
  · simp [hlen]
  · intro n h1 h2
    have hn : n < full o := by rw [hlen] at h1; exact h1
    have h3 := hcells n hn
    have h4 : r.cells.getD n 0 = r.cells[n] := by
      rw [List.getD_eq_getElem?_getD, List.getElem?_eq_getElem h1]
      rfl
    rw [← h4, h3, List.getElem_map, List.getElem_range]

/-- The cell permutation is a bijection of the cell index space. -/
theorem unmapC_perm {o : Nat} (h4 : 4 ≤ o) :
    List.Perm ((List.range (full o)).map (unmapC o)) (List.range (full o)) := by
  have hnd : ((List.range (full o)).map (unmapC o)).Nodup := by
    refine List.Nodup.map_on ?_ (List.nodup_range _)
    intro x hx y hy hxy
    have hx2 : x < full o := List.mem_range.mp hx
    have hy2 : y < full o := List.mem_range.mp hy
    rw [← mapC_unmapC h4 hx2, ← mapC_unmapC h4 hy2, hxy]
  have hsub : (List.range (full o)).map (unmapC o) ⊆ List.range (full o) := by
    intro x hx
    rw [List.mem_map] at hx
    obtain ⟨p, hp, rfl⟩ := hx
    exact List.mem_range.mpr (unmapC_lt h4 (List.mem_range.mp hp))
  refine (List.subperm_of_subset hnd hsub).perm_of_length_le ?_
  rw [List.length_map]

/-- Updating a `filterMap` source at one position from a `none` result to
a `some a` result adjoins `a`, up to permutation. -/
theorem filterMap_perm_update {ψ ψ2 : Nat → Option Nat} {l : List Nat} {n0 a : Nat}
    (hl : l.Nodup) (hn0 : n0 ∈ l) (hψ : ψ n0 = none) (hψ2 : ψ2 n0 = some a)
    (hagree : ∀ n ∈ l, n ≠ n0 → ψ n = ψ2 n) :
    List.Perm (l.filterMap ψ2) (a :: l.filterMap ψ) := by
  obtain ⟨A, B, rfl⟩ := List.append_of_mem hn0
  obtain ⟨hndA, hndC, hdisj⟩ := List.nodup_append.mp hl
  have hA : n0 ∉ A := fun h => hdisj h (List.mem_cons_self _ _)
  have hB : n0 ∉ B := (List.nodup_cons.mp hndC).1
  have hcA : A.filterMap ψ = A.filterMap ψ2 :=
    List.filterMap_congr fun n hn =>
      hagree n (List.mem_append_left _ hn) (fun he => hA (he ▸ hn))
  have hcB : B.filterMap ψ = B.filterMap ψ2 :=
    List.filterMap_congr fun n hn =>
      hagree n (List.mem_append_right _ (List.mem_cons_of_mem _ hn))
        (fun he => hB (he ▸ hn))
  rw [List.filterMap_append, List.filterMap_append,
    List.filterMap_cons_some hψ2, List.filterMap_cons_none hψ, ← hcA, ← hcB]
  exact List.perm_middle

theorem segOf_succ (f : Nat → Nat) (H T : Nat) (h : H ≤ T) :
    segOf f H (T + 1) = segOf f H T ++ [f T] := by
  rw [segOf, segOf, show T + 1 - H = (T - H) + 1 by omega, List.range_succ,
    List.map_append]
  simp [show H + (T - H) = T by omega]

/-- The live positions of a ring window, read through the governed-cycle
test over the whole cell index space, enumerate the resident indices. -/
theorem filterMap_live_perm {o : Nat} (f : Nat → Nat) (k : Nat) :
    ∀ H, k ≤ full o →
      List.Perm
        ((List.range (full o)).filterMap fun n =>
          if n < H + k ∧ H ≤ gov o (H + k) n then some (f (gov o (H + k) n)) else none)
        (segOf f H (H + k)) := by
  induction k with
  | zero =>
    intro H hk
    have h1 : ∀ n ∈ List.range (full o),
        (if n < H + 0 ∧ H ≤ gov o (H + 0) n then some (f (gov o (H + 0) n)) else none)
          = none := by
      intro n hn
      rw [if_neg]
      rintro ⟨h2, h3⟩
      have := gov_lt_T (o := o) h2
      omega
    rw [List.filterMap_eq_nil_iff.mpr h1, segOf]
    simp
  | succ k ih =>
    intro H hk
    have hfp := full_pos o
    have hmodle : (H + k) % full o ≤ H + k := Nat.mod_le _ _
    have hTs : H + (k + 1) = H + k + 1 := by omega
    rw [hTs]
    have hn0mem : (H + k) % full o ∈ List.range (full o) :=
      List.mem_range.mpr (Nat.mod_lt _ hfp)
    have hdead : (if (H + k) % full o < H + k ∧ H ≤ gov o (H + k) ((H + k) % full o)
        then some (f (gov o (H + k) ((H + k) % full o))) else none) = none := by
      rw [if_neg]
      rintro ⟨h2, h3⟩
      have h5 : full o ≤ H + k := by
        rcases lt_or_le (H + k) (full o) with h6 | h6
        · rw [Nat.mod_eq_of_lt h6] at h2
          omega
        · exact h6
      rw [gov_at_tail h5] at h3
      omega
    have hlive : (if (H + k) % full o < H + k + 1 ∧
          H ≤ gov o (H + k + 1) ((H + k) % full o)
        then some (f (gov o (H + k + 1) ((H + k) % full o))) else none)
        = some (f (H + k)) := by
      rw [gov_succ_self,
        if_pos (show (H + k) % full o < H + k + 1 ∧ H ≤ H + k from
          ⟨by omega, by omega⟩)]
    have hag : ∀ n ∈ List.range (full o), n ≠ (H + k) % full o →
        (if n < H + k ∧ H ≤ gov o (H + k) n then some (f (gov o (H + k) n)) else none)
          = (if n < H + k + 1 ∧ H ≤ gov o (H + k + 1) n
              then some (f (gov o (H + k + 1) n)) else none) := by
      intro n hn hne
      have hnf : n < full o := List.mem_range.mp hn
      rcases lt_or_le n (H + k) with h2 | h2
      · have hne2 : n % full o ≠ (H + k) % full o := by
          rw [Nat.mod_eq_of_lt hnf]
          exact hne
        rw [gov_succ_ne h2 hne2]
        rcases le_or_lt H (gov o (H + k) n) with h3 | h3
        · rw [if_pos (show n < H + k ∧ H ≤ gov o (H + k) n from ⟨h2, h3⟩),
            if_pos (show n < H + k + 1 ∧ H ≤ gov o (H + k) n from ⟨by omega, h3⟩)]
        · rw [if_neg (by omega : ¬ (n < H + k ∧ H ≤ gov o (H + k) n)),
            if_neg (by omega : ¬ (n < H + k + 1 ∧ H ≤ gov o (H + k) n))]
      · have h4 : ¬ n < H + k + 1 := by
          rcases lt_or_le (H + k) (full o) with h5 | h5
          · have h7 : (H + k) % full o = H + k := Nat.mod_eq_of_lt h5
            omega
          · omega
        rw [if_neg (by omega : ¬ (n < H + k ∧ H ≤ gov o (H + k) n)),
          if_neg (by omega : ¬ (n < H + k + 1 ∧ H ≤ gov o (H + k + 1) n))]
    refine (filterMap_perm_update (List.nodup_range _) hn0mem hdead hlive hag).trans ?_
    refine ((ih H (by omega)).cons (f (H + k))).trans ?_
    rw [segOf_succ f H (H + k) (by omega)]
    exact (List.perm_append_singleton _ _).symm

/-- The resident indices read off a sequential ring are a permutation of
the window of its resident map. -/
theorem ringIndices_perm {o b H T : Nat} {f : Nat → Nat} {u : Nat → Bool} {r : Ring}
    (h4 : 4 ≤ o) (h60 : o ≤ 60) (hS : SeqRing o b r H T f u) :
    List.Perm (ringIndices o r) (segOf f H T) := by
  obtain ⟨k, rfl⟩ : ∃ k, T = H + k := ⟨T - H, by have := hS.hHT; omega⟩
  rw [ringIndices, cells_eq_map hS.hlen hS.hcells, List.filterMap_map]
  have hpoint : ∀ n ∈ List.range (full o),
      ((fun e => if e &&& (full o - 1) < half o
          then some (e &&& (full o - 1)) else none) ∘ cellContent o H (H + k) f u) n
      = ((fun m => if m < H + k ∧ H ≤ gov o (H + k) m
          then some (f (gov o (H + k) m)) else none) ∘ unmapC o) n := by
    intro n hn
    have hnf : n < full o := List.mem_range.mp hn
    simp only [Function.comp]
    rw [cellContent_decode h60 hS.hf hnf]
    by_cases hc : unmapC o n < H + k ∧ H ≤ gov o (H + k) (unmapC o n)
    · simp only [if_pos hc]
      rw [if_pos (hS.hf _ hc.2 (gov_lt_T hc.1))]
    · simp only [if_neg hc]
      rw [if_neg (full_sub_one_not_lt_half o)]
  rw [List.filterMap_congr hpoint, ← List.filterMap_map]
  refine (List.Perm.filterMap _ (unmapC_perm h4)).trans ?_
  exact filterMap_live_perm f k H (by have := hS.hwin; omega)

/-! ### Characterisations of one queue operation -/

/-- Successful `send`: free index out, payload written, ready index in. -/
theorem send_ok_eq {α : Type _} [Inhabited α] {o Hf Tf Hd Td : Nat}
    {ff fd : Nat → Nat} {uf ud : Nat → Bool} {q : RingQueue α}
    (h4 : 4 ≤ o) (h60 : o ≤ 60)
    (hSf : SeqRing o (half o) q.fq Hf Tf ff uf)
    (hSd : SeqRing o 0 q.dq Hd Td fd ud)
    (hne : Hf < Tf) (hroom : Td - Hd < full o) (hlen : q.data.length = half o)
    (n : Nat) (msg : α) :
    RingQueue.send o (n + 1) q msg = SendRes.ok
      { dq := { cells := q.dq.cells.set (mapC o (Td % full o)) (liveVal o Td (ff Hf)),
                head := q.dq.head, tail := (Td + 1) % W, threshold := thFull o },
        fq := { cells := q.fq.cells.set (mapC o (Hf % full o))
                  (if Hf < half o then cycleVal o Hf ^^^ full o else cycleVal o Hf),
                head := (Hf + 1) % W, tail := q.fq.tail, threshold := q.fq.threshold },
        data := q.data.set (ff Hf) msg } := by
  have hi : ff Hf < half o := hSf.hf Hf (le_refl _) hne
  simp only [RingQueue.send, dequeue_hit_eq h4 h60 hSf hne n]
  rw [hlen, if_pos hi]
  simp only [enqueue_eq h4 h60 hSd hroom (ff Hf) n]

/-- `send` on a queue whose free ring has a negative threshold reports
full at once, leaving the state unchanged. -/
theorem send_full_fast {α : Type _} [Inhabited α] {o : Nat} {q : RingQueue α}
    (hth : q.fq.threshold < 0) (fuel : Nat) (msg : α) :
    RingQueue.send o fuel q msg = SendRes.full q := by
  simp only [RingQueue.send, dequeue_fast hth]

/-- `send` on a queue with an empty free ring (all slots in flight)
reports full; the free ring absorbs the miss. -/
theorem send_full_empty {α : Type _} [Inhabited α] {o Hf : Nat}
    {ff : Nat → Nat} {uf : Nat → Bool} {q : RingQueue α}
    (h4 : 4 ≤ o) (h60 : o ≤ 60) (hSf : SeqRing o (half o) q.fq Hf Hf ff uf)
    (hth : 0 ≤ q.fq.threshold) (n : Nat) (msg : α) :
    RingQueue.send o (n + 1) q msg = SendRes.full
      { q with fq :=
          { cells := q.fq.cells.set (mapC o (Hf % full o))
              (if uf (mapC o (Hf % full o)) then cycleVal o Hf ^^^ full o
                else cycleVal o Hf),
            head := (Hf + 1) % W, tail := (Hf + 1) % W,
            threshold := q.fq.threshold - 1 } } := by
  simp only [RingQueue.send, dequeue_empty_eq h4 h60 hSf hth n]

/-- Successful `recv`: ready index out, payload taken (reset to the
default), free index back in. -/
theorem recv_ok_eq {α : Type _} [Inhabited α] {o Hf Tf Hd Td : Nat}
    {ff fd : Nat → Nat} {uf ud : Nat → Bool} {q : RingQueue α}
    (h4 : 4 ≤ o) (h60 : o ≤ 60)
    (hSf : SeqRing o (half o) q.fq Hf Tf ff uf)
    (hSd : SeqRing o 0 q.dq Hd Td fd ud)
    (hne : Hd < Td) (hroom : Tf - Hf < full o) (hlen : q.data.length = half o)
    (n : Nat) :
    RingQueue.recv o (n + 1) q = RecvRes.ok (q.data.getD (fd Hd) default)
      { dq := { cells := q.dq.cells.set (mapC o (Hd % full o)) (cycleVal o Hd),
                head := (Hd + 1) % W, tail := q.dq.tail, threshold := q.dq.threshold },
        fq := { cells := q.fq.cells.set (mapC o (Tf % full o)) (liveVal o Tf (fd Hd)),
                head := q.fq.head, tail := (Tf + 1) % W, threshold := thFull o },
        data := q.data.set (fd Hd) default } := by
  have hi : fd Hd < half o := hSd.hf Hd (le_refl _) hne
  have hi2 : fd Hd < q.data.length := by omega
  have hd0 : (if Hd < 0 then cycleVal o Hd ^^^ full o else cycleVal o Hd)
      = cycleVal o Hd := by
    rw [if_neg (by omega)]
  simp only [RingQueue.recv, dequeue_hit_eq h4 h60 hSd hne n, hd0]
  rw [dif_pos hi2]
  simp only [enqueue_eq h4 h60 hSf hroom (fd Hd) n]
  have hv : q.data.get ⟨fd Hd, hi2⟩ = q.data.getD (fd Hd) default := by
    rw [List.getD_eq_getElem?_getD, List.getElem?_eq_getElem hi2]
    rfl
  rw [hv]

/-- `recv` on a queue whose ready ring has a negative threshold reports
empty at once, leaving the state unchanged. -/
theorem recv_empty_fast {α : Type _} [Inhabited α] {o : Nat} {q : RingQueue α}
    (hth : q.dq.threshold < 0) (fuel : Nat) :
    RingQueue.recv o fuel q = RecvRes.empty q := by
  simp only [RingQueue.recv, dequeue_fast hth]

/-- `recv` on a queue with an empty ready ring reports empty; the ready
ring absorbs the miss. -/
theorem recv_empty_eq {α : Type _} [Inhabited α] {o Hd : Nat}
    {fd : Nat → Nat} {ud : Nat → Bool} {q : RingQueue α}
    (h4 : 4 ≤ o) (h60 : o ≤ 60) (hSd : SeqRing o 0 q.dq Hd Hd fd ud)
    (hth : 0 ≤ q.dq.threshold) (n : Nat) :
    RingQueue.recv o (n + 1) q = RecvRes.empty
      { q with dq :=
          { cells := q.dq.cells.set (mapC o (Hd % full o))
              (if ud (mapC o (Hd % full o)) then cycleVal o Hd ^^^ full o
                else cycleVal o Hd),
            head := (Hd + 1) % W, tail := (Hd + 1) % W,
            threshold := q.dq.threshold - 1 } } := by
  simp only [RingQueue.recv, dequeue_empty_eq h4 h60 hSd hth n]

/-! ### The queue invariant: establishment and preservation -/

theorem segOf_nil (f : Nat → Nat) (H : Nat) : segOf f H H = [] := by
  rw [segOf]
  simp

theorem segOf_cons (f : Nat → Nat) {H T : Nat} (h : H < T) :
    segOf f H T = f H :: segOf f (H + 1) T := by
  rw [segOf, segOf, show T - H = (T - (H + 1)) + 1 by omega, List.range_succ_eq_map,
    List.map_cons, List.map_map]
  congr 1
  apply List.map_congr_left
  intro k hk
  simp only [Function.comp]
  exact congrArg f (by omega)

theorem segOf_congr {f g : Nat → Nat} {H T : Nat}
    (h : ∀ s, H ≤ s → s < T → f s = g s) : segOf f H T = segOf g H T := by
  rw [segOf, segOf]
  apply List.map_congr_left
  intro k hk
  have := List.mem_range.mp hk
  exact h (H + k) (by omega) (by omega)

theorem segOf_length (f : Nat → Nat) (H T : Nat) : (segOf f H T).length = T - H := by
  rw [segOf]
  simp

/-- The fill permutation is a bijection of the slot index space. -/
theorem rotV_perm {o : Nat} (h4 : 4 ≤ o) :
    List.Perm ((List.range (half o)).map (rotV o)) (List.range (half o)) := by
  have hnd : ((List.range (half o)).map (rotV o)).Nodup := by
    refine List.Nodup.map_on ?_ (List.nodup_range _)
    intro x hx y hy hxy
    have hx2 : x < half o := List.mem_range.mp hx
    have hy2 : y < half o := List.mem_range.mp hy
    rw [← rotVinv_rotV h4 hx2, ← rotVinv_rotV h4 hy2, hxy]
  have hsub : (List.range (half o)).map (rotV o) ⊆ List.range (half o) := by
    intro x hx
    rw [List.mem_map] at hx
    obtain ⟨p, hp, rfl⟩ := hx
    exact List.mem_range.mpr (rotV_lt h4 (List.mem_range.mp hp))
  refine (List.subperm_of_subset hnd hsub).perm_of_length_le ?_
  rw [List.length_map]

/-- `create` establishes the queue invariant. -/
theorem qinv_create (α : Type _) [Inhabited α] {o : Nat} (h4 : 4 ≤ o) (h60 : o ≤ 60) :
    QInv o (create α o) := by
  refine ⟨0, half o, f0 o, u0 o, 0, 0, fun _ => 0, fun _ => false,
    seqRing_fill h4 h60, seqRing_new h4 h60, ?_, ?_⟩
  · rw [segOf_nil, List.append_nil]
    have h1 : segOf (f0 o) 0 (half o) = (List.range (half o)).map (rotV o) := by
      rw [segOf, Nat.sub_zero]
      apply List.map_congr_left
      intro k hk
      rw [f0, Nat.zero_add]
    rw [h1]
    exact rotV_perm h4
  · show (List.replicate (shl 1 o) (default : α)).length = half o
    rw [List.length_replicate, shl, Nat.mod_eq_of_lt (show o < 64 by omega),
      Nat.one_shiftLeft, ← half, Nat.mod_eq_of_lt (half_lt_W h60)]

/-- Every completed queue operation preserves the queue invariant. -/
theorem qinv_step {α : Type _} [Inhabited α] {o : Nat} (h4 : 4 ≤ o) (h60 : o ≤ 60)
    {q q2 : RingQueue α} (hstep : Step α o q q2) (hinv : QInv o q) : QInv o q2 := by
  obtain ⟨Hf, Tf, ff, uf, Hd, Td, fd, ud, hSf, hSd, hperm, hlen⟩ := hinv
  have hsum : (Tf - Hf) + (Td - Hd) = half o := by
    have h1 := hperm.length_eq
    rw [List.length_append, segOf_length, segOf_length, List.length_range] at h1
    exact h1
  have hfull2 := full_eq o
  have hhp := half_pos o
  have hroomd : Td - Hd < full o := by omega
  have hroomf : Tf - Hf < full o := by omega
  cases hstep with
  | sendOk fuel msg _ _ heq =>
    cases fuel with
    | zero =>
      rcases lt_or_le q.fq.threshold 0 with hth | hth
      · simp only [RingQueue.send, dequeue_fast hth] at heq
        exact SendRes.noConfusion heq
      · simp only [RingQueue.send, Ring.dequeue,
          if_neg (by omega : ¬ q.fq.threshold < 0), Ring.dequeueGo] at heq
        exact SendRes.noConfusion heq
    | succ n =>
      rcases Nat.lt_or_ge Hf Tf with hne | hge
      · rw [send_ok_eq h4 h60 hSf hSd hne hroomd hlen n msg] at heq
        injection heq with h2
        subst h2
        refine ⟨Hf + 1, Tf, ff, uf, Hd, Td + 1,
          (fun s => if s = Td then ff Hf else fd s),
          (fun p => if p = mapC o (Td % full o) then false else ud p),
          seqRing_dequeue_hit h4 h60 hSf hne,
          seqRing_enqueue h4 hSd hroomd (hSf.hf Hf (le_refl _) hne), ?_, ?_⟩
        · have hsegd : segOf (fun s => if s = Td then ff Hf else fd s) Hd (Td + 1)
              = segOf fd Hd Td ++ [ff Hf] := by
            rw [segOf_succ _ _ _ hSd.hHT]
            congr 1
            · exact segOf_congr fun s hs1 hs2 => if_neg (by omega)
            · rw [if_pos rfl]
          rw [hsegd, ← List.append_assoc]
          refine (List.perm_append_singleton _ _).trans ?_
          refine List.Perm.trans ?_ hperm
          rw [segOf_cons ff hne, List.cons_append]
        · show (q.data.set (ff Hf) msg).length = half o
          rw [List.length_set]
          exact hlen
      · have heqHT : Hf = Tf := le_antisymm hSf.hHT hge
        subst heqHT
        rcases lt_or_le q.fq.threshold 0 with hth | hth
        · rw [send_full_fast hth] at heq
          simp at heq
        · rw [send_full_empty h4 h60 hSf hth n msg] at heq
          simp at heq
  | sendFull fuel msg _ _ heq =>
    cases fuel with
    | zero =>
      rcases lt_or_le q.fq.threshold 0 with hth | hth
      · simp only [RingQueue.send, dequeue_fast hth] at heq
        injection heq with h2
        subst h2
        exact ⟨Hf, Tf, ff, uf, Hd, Td, fd, ud, hSf, hSd, hperm, hlen⟩
      · simp only [RingQueue.send, Ring.dequeue,
          if_neg (by omega : ¬ q.fq.threshold < 0), Ring.dequeueGo] at heq
        exact SendRes.noConfusion heq
    | succ n =>
      rcases Nat.lt_or_ge Hf Tf with hne | hge
      · rw [send_ok_eq h4 h60 hSf hSd hne hroomd hlen n msg] at heq
        simp at heq
      · have heqHT : Hf = Tf := le_antisymm hSf.hHT hge
        subst heqHT
        rcases lt_or_le q.fq.threshold 0 with hth | hth
        · rw [send_full_fast hth] at heq
          injection heq with h2
          subst h2
          exact ⟨Hf, Hf, ff, uf, Hd, Td, fd, ud, hSf, hSd, hperm, hlen⟩
        · rw [send_full_empty h4 h60 hSf hth n msg] at heq
          injection heq with h2
          subst h2
          refine ⟨Hf + 1, Hf + 1, ff, uf, Hd, Td, fd, ud,
            seqRing_dequeue_empty h4 hSf hth, hSd, ?_, hlen⟩
          rw [segOf_nil, List.nil_append]
          rw [segOf_nil, List.nil_append] at hperm
          exact hperm
  | recvOk fuel v _ _ heq =>
    cases fuel with
    | zero =>
      rcases lt_or_le q.dq.threshold 0 with hth | hth
      · simp only [RingQueue.recv, dequeue_fast hth] at heq
        exact RecvRes.noConfusion heq
      · simp only [RingQueue.recv, Ring.dequeue,
          if_neg (by omega : ¬ q.dq.threshold < 0), Ring.dequeueGo] at heq
        exact RecvRes.noConfusion heq
    | succ n =>
      rcases Nat.lt_or_ge Hd Td with hne | hge
      · rw [recv_ok_eq h4 h60 hSf hSd hne hroomf hlen n] at heq
        injection heq with h1 h2
        subst h2
        have hrec := seqRing_dequeue_hit h4 h60 hSd hne
        rw [if_neg (by omega : ¬ Hd < 0)] at hrec
        refine ⟨Hf, Tf + 1,
          (fun s => if s = Tf then fd Hd else ff s),
          (fun p => if p = mapC o (Tf % full o) then false else uf p),
          Hd + 1, Td, fd, ud,
          seqRing_enqueue h4 hSf hroomf (hSd.hf Hd (le_refl _) hne),
          hrec, ?_, ?_⟩
        · have hsegf : segOf (fun s => if s = Tf then fd Hd else ff s) Hf (Tf + 1)
              = segOf ff Hf Tf ++ [fd Hd] := by
            rw [segOf_succ _ _ _ hSf.hHT]
            congr 1
            · exact segOf_congr fun s hs1 hs2 => if_neg (by omega)
            · rw [if_pos rfl]
          rw [hsegf, List.append_assoc, List.singleton_append]
          rw [segOf_cons fd hne] at hperm
          exact hperm
        · show (q.data.set (fd Hd) default).length = half o
          rw [List.length_set]
          exact hlen
      · have heqHT : Hd = Td := le_antisymm hSd.hHT hge
        subst heqHT
        rcases lt_or_le q.dq.threshold 0 with hth | hth
        · rw [recv_empty_fast hth] at heq
          simp at heq
        · rw [recv_empty_eq h4 h60 hSd hth n] at heq
          simp at heq
  | recvEmpty fuel _ _ heq =>
    cases fuel with
    | zero =>
      rcases lt_or_le q.dq.threshold 0 with hth | hth
      · simp only [RingQueue.recv, dequeue_fast hth] at heq
        injection heq with h2
        subst h2
        exact ⟨Hf, Tf, ff, uf, Hd, Td, fd, ud, hSf, hSd, hperm, hlen⟩
      · simp only [RingQueue.recv, Ring.dequeue,
          if_neg (by omega : ¬ q.dq.threshold < 0), Ring.dequeueGo] at heq
        exact RecvRes.noConfusion heq
    | succ n =>
      rcases Nat.lt_or_ge Hd Td with hne | hge
      · rw [recv_ok_eq h4 h60 hSf hSd hne hroomf hlen n] at heq
        simp at heq
      · have heqHT : Hd = Td := le_antisymm hSd.hHT hge
        subst heqHT
        rcases lt_or_le q.dq.threshold 0 with hth | hth
        · rw [recv_empty_fast hth] at heq
          injection heq with h2
          subst h2
          exact ⟨Hf, Tf, ff, uf, Hd, Hd, fd, ud, hSf, hSd, hperm, hlen⟩
        · rw [recv_empty_eq h4 h60 hSd hth n] at heq
          injection heq with h2
          subst h2
          refine ⟨Hf, Tf, ff, uf, Hd + 1, Hd + 1, fd, ud, hSf,
            seqRing_dequeue_empty h4 hSd hth, ?_, hlen⟩
          rw [segOf_nil, List.append_nil]
          rw [segOf_nil, List.append_nil] at hperm
          exact hperm

/-- Every reachable queue state satisfies the queue invariant. -/
theorem qinv_reachable {α : Type _} [Inhabited α] {o : Nat} (h4 : 4 ≤ o) (h60 : o ≤ 60)
    {q : RingQueue α} (hr : Reachable α o q) : QInv o q := by
  induction hr with
  | refl => exact qinv_create α h4 h60
  | tail hab hbc ih => exact qinv_step h4 h60 hbc ih

/-! ## The claims -/

/-- C1: ring-partition invariant.  In every queue state reachable from
`create` by completed send/recv operations, the slot indices resident in
the free ring together with those resident in the ready ring are a
permutation of the `2^ORDER` payload slot indices: no index is in both
rings, none is lost, none is duplicated; the property holds initially
and is preserved by every send and recv. -/
theorem claim_ring_partition {α : Type _} [Inhabited α] {o : Nat} (h4 : 4 ≤ o)
    (h60 : o ≤ 60) {q : RingQueue α} (hr : Reachable α o q) :
    List.Perm (ringIndices o q.fq ++ ringIndices o q.dq) (List.range (2 ^ o)) := by
  obtain ⟨Hf, Tf, ff, uf, Hd, Td, fd, ud, hSf, hSd, hperm, hlen⟩ :=
    qinv_reachable h4 h60 hr
  exact ((ringIndices_perm h4 h60 hSf).append (ringIndices_perm h4 h60 hSd)).trans hperm

theorem claim_ring_partition_witness :
    List.Perm (ringIndices 4 (create Nat 4).fq ++ ringIndices 4 (create Nat 4).dq)
      (List.range (2 ^ 4)) :=
  claim_ring_partition (by norm_num) (by norm_num) Relation.ReflTransGen.refl

/-- C2 (corrected): the capacity boundary, at the minimum well-formed
order.  With `ORDER = 4` (capacity 16), `2^4` sends succeed, the next
send before any recv reports full, and after one successful recv the
next send succeeds again.  The claim's `ORDER = 0` queue is broken by
construction (see the counterexample): its first send already fails. -/
theorem claim_capacity_boundary : capacityBoundary 4 9 = true := by decide

/-- C2, counterexample to the original claim: on the queue of
`create::<T, 0>()` the very first `send` reports a full queue (`None`)
instead of succeeding. -/
theorem claim_capacity_boundary_counterexample :
    (RingQueue.send 0 9 (create Nat 0) 7).isOk = false ∧
    (RingQueue.send 0 9 (create Nat 0) 7).isFull = true := by decide

/-- C3: `create` performs no validation of `ORDER` against
`RING_MIN_ORDER` (= 4 on 64-bit targets).  Under release semantics
`create::<T, 0>()` returns normally and yields a corrupt free ring: the
cell permutation `map` collapses (underflowed shift amount), so `fill`'s
empty-cell pass overwrites the preloaded index (both free-ring cells end
up `RING_EMPTY_VAL` while `tail = 1` and `threshold = 2` claim one
resident entry), and the resulting queue — nominally of capacity 1 —
rejects its first `send`.  There is no defined construction-time
failure; in a debug build the same call would panic on subtract
overflow inside `map` rather than reject the order. -/
theorem claim_create_rejects_low_order :
    0 < RING_MIN_ORDER ∧
    Ring.map 0 (Ring.get_nr_cells 0) 1 = Ring.map 1 (Ring.get_nr_cells 0) 1 ∧
    (create Nat 0).fq =
      { cells := [RING_EMPTY_VAL, RING_EMPTY_VAL], head := 0, tail := 1,
        threshold := 2 } ∧
    (create Nat 0).data = [0] ∧
    (RingQueue.send 0 9 (create Nat 0) 7).isOk = false := by decide

/-- C4: the state after `create`.  The payload vector has `2^ORDER`
default-valued cells; the free ring holds every slot index exactly once
with `head = 0`, `tail = 2^ORDER` and
`threshold = capacity + cells - 1`; the ready ring holds no entries,
with `head = 0`, `tail = 0` and `threshold = -1`. -/
theorem claim_create_initial_state (α : Type _) [Inhabited α] (o : Nat) (h4 : 4 ≤ o)
    (h60 : o ≤ 60) :
    (create α o).data = List.replicate (2 ^ o) (default : α) ∧
    (create α o).fq.head = 0 ∧
    (create α o).fq.tail = 2 ^ o ∧
    (create α o).fq.threshold = (2 ^ o : Int) + 2 ^ (o + 1) - 1 ∧
    (create α o).dq.head = 0 ∧
    (create α o).dq.tail = 0 ∧
    (create α o).dq.threshold = -1 ∧
    List.Perm (ringIndices o (create α o).fq) (List.range (2 ^ o)) ∧
    ringIndices o (create α o).dq = [] := by
  have hSf := seqRing_fill h4 h60
  have hshl : shl 1 o = 2 ^ o := by
    have hhW := half_lt_W h60
    rw [half] at hhW
    rw [shl, Nat.mod_eq_of_lt (show o < 64 by omega), Nat.one_shiftLeft,
      Nat.mod_eq_of_lt hhW]
  refine ⟨?_, ?_, ?_, ?_, rfl, rfl, rfl, ?_, ?_⟩
  · show List.replicate (shl 1 o) (default : α) = _
    rw [hshl]
  · show (Ring.fill o (Ring.new o)).head = 0
    rw [hSf.hhead, Nat.zero_mod]
  · show (Ring.fill o (Ring.new o)).tail = 2 ^ o
    rw [hSf.htail, Nat.mod_eq_of_lt (half_lt_W h60)]
    rfl
  · show (Ring.fill o (Ring.new o)).threshold = (2 ^ o : Int) + 2 ^ (o + 1) - 1
    rw [hSf.hthNE (half_pos o), thFull, half, full]
    push_cast
    ring
  · refine (ringIndices_perm h4 h60 hSf).trans ?_
    have h1 : segOf (f0 o) 0 (half o) = (List.range (half o)).map (rotV o) := by
      rw [segOf, Nat.sub_zero]
      apply List.map_congr_left
      intro k hk
      rw [f0, Nat.zero_add]
    rw [h1]
    exact rotV_perm h4
  · have h2 := ringIndices_perm h4 h60 (seqRing_new h4 h60)
    rw [segOf_nil] at h2
    exact h2.eq_nil

theorem claim_create_initial_state_witness :
    (create Nat 4).data = List.replicate (2 ^ 4) (default : Nat) ∧
    (create Nat 4).fq.head = 0 ∧
    (create Nat 4).fq.tail = 2 ^ 4 ∧
    (create Nat 4).fq.threshold = (2 ^ 4 : Int) + 2 ^ (4 + 1) - 1 ∧
    (create Nat 4).dq.head = 0 ∧
    (create Nat 4).dq.tail = 0 ∧
    (create Nat 4).dq.threshold = -1 ∧
    List.Perm (ringIndices 4 (create Nat 4).fq) (List.range (2 ^ 4)) ∧
    ringIndices 4 (create Nat 4).dq = [] :=
  claim_create_initial_state Nat 4 (by norm_num) (by norm_num)

/-- Inversion: on an invariant ring, a dequeue that yields an index can
only be the head hit. -/
theorem dequeue_some_inv {o b H T fuel : Nat} {f : Nat → Nat} {u : Nat → Bool}
    {r : Ring} {i : Nat} {r2 : Ring}
    (h4 : 4 ≤ o) (h60 : o ≤ 60) (hS : SeqRing o b r H T f u)
    (heq : Ring.dequeue o fuel r = some (some i, r2)) :
    H < T ∧ i = f H ∧
      r2 = { cells := r.cells.set (mapC o (H % full o))
              (if H < b then cycleVal o H ^^^ full o else cycleVal o H),
             head := (H + 1) % W, tail := r.tail, threshold := r.threshold } := by
  cases fuel with
  | zero =>
    rcases lt_or_le r.threshold 0 with hth | hth
    · rw [dequeue_fast hth] at heq
      injection heq with h1
      injection h1 with h2 h3
      exact Option.noConfusion h2
    · rw [Ring.dequeue, if_neg (by omega : ¬ r.threshold < 0)] at heq
      exact Option.noConfusion heq
  | succ n =>
    rcases Nat.lt_or_ge H T with hlt | hge
    · rw [dequeue_hit_eq h4 h60 hS hlt n] at heq
      injection heq with h1
      injection h1 with h2 h3
      injection h2 with h5
      exact ⟨hlt, h5.symm, h3.symm⟩
    · have hHT : H = T := le_antisymm hS.hHT hge
      subst hHT
      rcases lt_or_le r.threshold 0 with hth | hth
      · rw [dequeue_fast hth] at heq
        injection heq with h1
        injection h1 with h2 h3
        exact Option.noConfusion h2
      · rw [dequeue_empty_eq h4 h60 hS hth n] at heq
        injection heq with h1
        injection h1 with h2 h3
        exact Option.noConfusion h2

/-- C5: `send(msg)` returns `None` exactly when dequeuing the free ring
yields no index; otherwise it writes `msg` into the payload cell at the
dequeued index, enqueues that same index into the ready ring
(infallibly) and returns `Some(())`.  (A free-ring dequeue that never
terminates makes `send` spin.) -/
theorem claim_send_spec {α : Type _} [Inhabited α] {o fuel : Nat} (h4 : 4 ≤ o)
    (h60 : o ≤ 60) {q : RingQueue α} (hr : Reachable α o q) (msg : α) :
    (Ring.dequeue o fuel q.fq = none →
      RingQueue.send o fuel q msg = SendRes.spin) ∧
    (∀ fq1, Ring.dequeue o fuel q.fq = some (none, fq1) →
      RingQueue.send o fuel q msg = SendRes.full { q with fq := fq1 }) ∧
    (∀ i fq1, Ring.dequeue o fuel q.fq = some (some i, fq1) →
      ∃ dq1, Ring.enqueue o fuel q.dq i = some dq1 ∧
        RingQueue.send o fuel q msg =
          SendRes.ok { dq := dq1, fq := fq1, data := q.data.set i msg }) := by
  obtain ⟨Hf, Tf, ff, uf, Hd, Td, fd, ud, hSf, hSd, hperm, hlen⟩ :=
    qinv_reachable h4 h60 hr
  have hsum : (Tf - Hf) + (Td - Hd) = half o := by
    have h1 := hperm.length_eq
    rw [List.length_append, segOf_length, segOf_length, List.length_range] at h1
    exact h1
  have hfull2 := full_eq o
  have hhp := half_pos o
  have hroomd : Td - Hd < full o := by omega
  refine ⟨?_, ?_, ?_⟩
  · intro hnone
    rw [RingQueue.send, hnone]
  · intro fq1 hsome
    rw [RingQueue.send, hsome]
  · intro i fq1 hsome
    cases fuel with
    | zero =>
      rcases lt_or_le q.fq.threshold 0 with hth | hth
      · rw [dequeue_fast hth] at hsome
        injection hsome with h1
        injection h1 with h2 h3
        exact Option.noConfusion h2
      · rw [Ring.dequeue, if_neg (by omega : ¬ q.fq.threshold < 0)] at hsome
        exact Option.noConfusion hsome
    | succ n =>
      obtain ⟨hlt, hi, hr2⟩ := dequeue_some_inv h4 h60 hSf hsome
      subst hi
      subst hr2
      refine ⟨_, enqueue_eq h4 h60 hSd hroomd (ff Hf) n, ?_⟩
      rw [send_ok_eq h4 h60 hSf hSd hlt hroomd hlen n msg]

theorem claim_send_spec_witness :
    (Ring.dequeue 4 1 (create Nat 4).fq = none →
      RingQueue.send 4 1 (create Nat 4) 0 = SendRes.spin) ∧
    (∀ fq1, Ring.dequeue 4 1 (create Nat 4).fq = some (none, fq1) →
      RingQueue.send 4 1 (create Nat 4) 0 = SendRes.full { create Nat 4 with fq := fq1 }) ∧
    (∀ i fq1, Ring.dequeue 4 1 (create Nat 4).fq = some (some i, fq1) →
      ∃ dq1, Ring.enqueue 4 1 (create Nat 4).dq i = some dq1 ∧
        RingQueue.send 4 1 (create Nat 4) 0 =
          SendRes.ok { dq := dq1, fq := fq1, data := (create Nat 4).data.set i 0 }) :=
  claim_send_spec (by norm_num) (by norm_num) Relation.ReflTransGen.refl 0

/-- C6: a negative threshold short-circuits `dequeue` to `None` at once,
without claiming a head position or modifying the ring; since `create`
initialises the ready ring with `threshold = -1`, `recv` on a fresh
queue (no prior send) returns `None` and leaves the queue unchanged. -/
theorem claim_threshold_fast_path (α : Type _) [Inhabited α] (o fuel : Nat) (r : Ring) :
    (r.threshold < 0 → Ring.dequeue o fuel r = some (none, r)) ∧
    (create α o).dq.threshold = -1 ∧
    RingQueue.recv o fuel (create α o) = RecvRes.empty (create α o) := by
  refine ⟨fun h => dequeue_fast h, rfl, ?_⟩
  exact recv_empty_fast (by show (-1 : Int) < 0; norm_num) fuel

theorem claim_threshold_fast_path_witness :
    Ring.dequeue 4 3 { cells := [], head := 0, tail := 0, threshold := -1 }
      = some (none, { cells := [], head := 0, tail := 0, threshold := -1 }) :=
  (claim_threshold_fast_path Nat 4 3
    { cells := [], head := 0, tail := 0, threshold := -1 }).1 (by norm_num)

/-- C7: frame effect of a successful receive.  Whenever `recv` returns
`Some(v)` having dequeued index `i` from the ready ring, `v` is the
value previously stored at `payload[i]`, that cell is left holding the
default value, every other payload cell is unchanged, and the same `i`
is enqueued back into the free ring. -/
theorem claim_recv_frame {α : Type _} [Inhabited α] {o fuel : Nat} (h4 : 4 ≤ o)
    (h60 : o ≤ 60) {q : RingQueue α} (hr : Reachable α o q) {v : α}
    {q2 : RingQueue α} (heq : RingQueue.recv o fuel q = RecvRes.ok v q2) :
    ∃ i dq1, i < q.data.length ∧
      Ring.dequeue o fuel q.dq = some (some i, dq1) ∧
      v = q.data.getD i default ∧
      q2.data = q.data.set i default ∧
      (∀ j, j ≠ i → q2.data.getD j default = q.data.getD j default) ∧
      Ring.enqueue o fuel q.fq i = some q2.fq ∧
      q2.dq = dq1 := by
  obtain ⟨Hf, Tf, ff, uf, Hd, Td, fd, ud, hSf, hSd, hperm, hlen⟩ :=
    qinv_reachable h4 h60 hr
  have hsum : (Tf - Hf) + (Td - Hd) = half o := by
    have h1 := hperm.length_eq
    rw [List.length_append, segOf_length, segOf_length, List.length_range] at h1
    exact h1
  have hfull2 := full_eq o
  have hhp := half_pos o
  have hroomf : Tf - Hf < full o := by omega
  cases fuel with
  | zero =>
    rcases lt_or_le q.dq.threshold 0 with hth | hth
    · simp only [RingQueue.recv, dequeue_fast hth] at heq
      exact RecvRes.noConfusion heq
    · simp only [RingQueue.recv, Ring.dequeue,
        if_neg (by omega : ¬ q.dq.threshold < 0), Ring.dequeueGo] at heq
      exact RecvRes.noConfusion heq
  | succ n =>
    rcases Nat.lt_or_ge Hd Td with hne | hge
    · rw [recv_ok_eq h4 h60 hSf hSd hne hroomf hlen n] at heq
      injection heq with h1 h2
      subst h2
      have hi : fd Hd < half o := hSd.hf Hd (le_refl _) hne
      have hdq := dequeue_hit_eq h4 h60 hSd hne n
      rw [if_neg (by omega : ¬ Hd < 0)] at hdq
      refine ⟨fd Hd, _, by omega, hdq, h1.symm, rfl, ?_, ?_, rfl⟩
      · intro j hj
        show (q.data.set (fd Hd) default).getD j default = _
        rw [List.getD_eq_getElem?_getD, List.getElem?_set_ne (Ne.symm hj),
          ← List.getD_eq_getElem?_getD]
      · exact enqueue_eq h4 h60 hSf hroomf (fd Hd) n
    · have hHT : Hd = Td := le_antisymm hSd.hHT hge
      subst hHT
      rcases lt_or_le q.dq.threshold 0 with hth | hth
      · rw [recv_empty_fast hth] at heq
        exact RecvRes.noConfusion heq
      · rw [recv_empty_eq h4 h60 hSd hth n] at heq
        exact RecvRes.noConfusion heq

theorem claim_recv_frame_witness :
    ∃ i dq1, i < oneSent.data.length ∧
      Ring.dequeue 4 1 oneSent.dq = some (some i, dq1) ∧
      oneRecv.val = oneSent.data.getD i default ∧
      (oneRecv.state oneSent).data = oneSent.data.set i default ∧
      (∀ j, j ≠ i → (oneRecv.state oneSent).data.getD j default
        = oneSent.data.getD j default) ∧
      Ring.enqueue 4 1 oneSent.fq i = some (oneRecv.state oneSent).fq ∧
      (oneRecv.state oneSent).dq = dq1 :=
  claim_recv_frame (by norm_num) (by norm_num)
    (Relation.ReflTransGen.single
      (Step.sendOk 1 5 (create Nat 4) oneSent (by decide)))
    (by decide)

/-- C8: `enqueue` always succeeds when the number of outstanding entries
is at most the capacity `2^ORDER`: with any spare fuel the claim loop
terminates on its first claimed cell, installing the encoded index
there — `enqueue` has no failure return. -/
theorem claim_enqueue_succeeds {o b H T : Nat} {f : Nat → Nat} {u : Nat → Bool}
    {r : Ring} (h4 : 4 ≤ o) (h60 : o ≤ 60) (hS : SeqRing o b r H T f u)
    (hcap : T - H ≤ half o) (i fuel : Nat) :
    ∃ r2, Ring.enqueue o (fuel + 1) r i = some r2 ∧
      r2.cells = r.cells.set (mapC o (T % full o)) (liveVal o T i) := by
  have h1 := full_eq o
  have h2 := half_pos o
  exact ⟨_, enqueue_eq h4 h60 hS (by omega) i fuel, rfl⟩

theorem claim_enqueue_succeeds_witness :
    ∃ r2, Ring.enqueue 4 (0 + 1) (Ring.fill 4 (Ring.new 4)) 3 = some r2 ∧
      r2.cells = (Ring.fill 4 (Ring.new 4)).cells.set
        (mapC 4 (half 4 % full 4)) (liveVal 4 (half 4) 3) :=
  claim_enqueue_succeeds (by norm_num) (by norm_num)
    (seqRing_fill (by norm_num) (by norm_num)) (by omega) 3 0

/-- C9: the cell encoding round-trips.  Decoding the value that
`enqueue` installs for index `i` at claimed position `t` —
`tcycle ^ (i ^ (full - 1))` — by masking with `full - 1`, as `dequeue`
does, yields `i` again; consequently on a quiescent invariant ring an
`enqueue(i)` followed by a `dequeue` returns `Some(i)`. -/
theorem claim_encode_roundtrip {o b H : Nat} {f : Nat → Nat} {u : Nat → Bool}
    {r : Ring} (h4 : 4 ≤ o) (h60 : o ≤ 60) (hS : SeqRing o b r H H f u)
    {i : Nat} (hi : i < half o) (t fuel1 fuel2 : Nat) :
    liveVal o t i &&& (full o - 1) = i ∧
    ∃ r2 r3, Ring.enqueue o (fuel1 + 1) r i = some r2 ∧
      Ring.dequeue o (fuel2 + 1) r2 = some (some i, r3) := by
  have h1 := full_eq o
  have h2 := half_pos o
  have hif : i < full o := by omega
  have hif2 : i < 2 ^ (o + 1) := hif
  constructor
  · conv_lhs => rw [liveVal_full_form o t hif]
    rw [and_mask_full _ hif2]
  · have hS2 := seqRing_enqueue h4 hS (by omega) hi
    have hd := dequeue_hit_eq h4 h60 hS2 (by omega : H < H + 1) fuel2
    have hd2 : Ring.dequeue o (fuel2 + 1)
        { cells := r.cells.set (mapC o (H % full o)) (liveVal o H i),
          head := r.head, tail := (H + 1) % W, threshold := thFull o }
        = some (some i,
          { cells := (r.cells.set (mapC o (H % full o)) (liveVal o H i)).set
              (mapC o (H % full o))
              (if H < b then cycleVal o H ^^^ full o else cycleVal o H),
            head := (H + 1) % W, tail := (H + 1) % W, threshold := thFull o }) := by
      simpa using hd
    exact ⟨_, _, enqueue_eq h4 h60 hS (by omega) i fuel1, hd2⟩

theorem claim_encode_roundtrip_witness :
    liveVal 4 5 3 &&& (full 4 - 1) = 3 ∧
    ∃ r2 r3, Ring.enqueue 4 (0 + 1) (Ring.new 4) 3 = some r2 ∧
      Ring.dequeue 4 (0 + 1) r2 = some (some 3, r3) :=
  claim_encode_roundtrip (by norm_num) (by norm_num)
    (seqRing_new (by norm_num) (by norm_num)) (by decide) 5 0 0

/-- C10: every index `dequeue` hands to `send` or `recv` in a reachable
execution is strictly below `2^ORDER` and below the payload length, so
the unchecked accesses `data[eidx]` are always in bounds — neither
`send` nor `recv` can reach the out-of-bounds outcome. -/
theorem claim_dequeue_in_bounds {α : Type _} [Inhabited α] {o fuel : Nat} (h4 : 4 ≤ o)
    (h60 : o ≤ 60) {q : RingQueue α} (hr : Reachable α o q) :
    (∀ i r2, Ring.dequeue o fuel q.fq = some (some i, r2) →
      i < 2 ^ o ∧ i < q.data.length) ∧
    (∀ i r2, Ring.dequeue o fuel q.dq = some (some i, r2) →
      i < 2 ^ o ∧ i < q.data.length) ∧
    (∀ msg, RingQueue.send o fuel q msg ≠ SendRes.oob) ∧
    RingQueue.recv o fuel q ≠ RecvRes.oob := by
  obtain ⟨Hf, Tf, ff, uf, Hd, Td, fd, ud, hSf, hSd, hperm, hlen⟩ :=
    qinv_reachable h4 h60 hr
  have hsum : (Tf - Hf) + (Td - Hd) = half o := by
    have h1 := hperm.length_eq
    rw [List.length_append, segOf_length, segOf_length, List.length_range] at h1
    exact h1
  have hfull2 := full_eq o
  have hhp := half_pos o
  have hroomd : Td - Hd < full o := by omega
  have hroomf : Tf - Hf < full o := by omega
  refine ⟨?_, ?_, ?_, ?_⟩
  · intro i r2 heq
    obtain ⟨hlt, hi, _⟩ := dequeue_some_inv h4 h60 hSf heq
    subst hi
    have h5 : ff Hf < half o := hSf.hf Hf (le_refl _) hlt
    exact ⟨h5, by omega⟩
  · intro i r2 heq
    obtain ⟨hlt, hi, _⟩ := dequeue_some_inv h4 h60 hSd heq
    subst hi
    have h5 : fd Hd < half o := hSd.hf Hd (le_refl _) hlt
    exact ⟨h5, by omega⟩
  · intro msg
    cases fuel with
    | zero =>
      rcases lt_or_le q.fq.threshold 0 with hth | hth
      · rw [send_full_fast hth]
        exact fun h => SendRes.noConfusion h
      · simp only [RingQueue.send, Ring.dequeue,
          if_neg (by omega : ¬ q.fq.threshold < 0), Ring.dequeueGo]
        exact fun h => SendRes.noConfusion h
    | succ n =>
      rcases Nat.lt_or_ge Hf Tf with hne | hge
      · rw [send_ok_eq h4 h60 hSf hSd hne hroomd hlen n msg]
        exact fun h => SendRes.noConfusion h
      · have hHT : Hf = Tf := le_antisymm hSf.hHT hge
        subst hHT
        rcases lt_or_le q.fq.threshold 0 with hth | hth
        · rw [send_full_fast hth]
          exact fun h => SendRes.noConfusion h
        · rw [send_full_empty h4 h60 hSf hth n msg]
          exact fun h => SendRes.noConfusion h
  · cases fuel with
    | zero =>
      rcases lt_or_le q.dq.threshold 0 with hth | hth
      · rw [recv_empty_fast hth]
        exact fun h => RecvRes.noConfusion h
      · simp only [RingQueue.recv, Ring.dequeue,
          if_neg (by omega : ¬ q.dq.threshold < 0), Ring.dequeueGo]
        exact fun h => RecvRes.noConfusion h
    | succ n =>
      rcases Nat.lt_or_ge Hd Td with hne | hge
      · rw [recv_ok_eq h4 h60 hSf hSd hne hroomf hlen n]
        exact fun h => RecvRes.noConfusion h
      · have hHT : Hd = Td := le_antisymm hSd.hHT hge
        subst hHT
        rcases lt_or_le q.dq.threshold 0 with hth | hth
        · rw [recv_empty_fast hth]
          exact fun h => RecvRes.noConfusion h
        · rw [recv_empty_eq h4 h60 hSd hth n]
          exact fun h => RecvRes.noConfusion h

theorem claim_dequeue_in_bounds_witness :
    (∀ i r2, Ring.dequeue 4 1 (create Nat 4).fq = some (some i, r2) →
      i < 2 ^ 4 ∧ i < (create Nat 4).data.length) ∧
    (∀ i r2, Ring.dequeue 4 1 (create Nat 4).dq = some (some i, r2) →
      i < 2 ^ 4 ∧ i < (create Nat 4).data.length) ∧
    (∀ msg, RingQueue.send 4 1 (create Nat 4) msg ≠ SendRes.oob) ∧
    RingQueue.recv 4 1 (create Nat 4) ≠ RecvRes.oob :=
  claim_dequeue_in_bounds (by norm_num) (by norm_num) Relation.ReflTransGen.refl

end Revl
